import Mathlib

/-!
XContents: a shallow embedding of `xcontents.c`.

The file models the request handling of the XContents file server
(`src/xcontents.c`): the resolver `parse_input`, the media type table
`mediatype`, and the three document operations `do_get_head`, `do_put` and
`do_post`, together with the dispatcher in the body of the loop of `main`.

Modelling decisions.

* A C `char` is a `Byte` (`Fin 256`); a C string is the list of its bytes up
  to, not including, the terminating NUL.  The capacity `BUFSIZE` of the C
  arrays is modelled where a string can outgrow one: `fgets` is given the
  size and cuts the line; `fscanf` into `closetag` and the `strcat` calls
  that build `filename` are given no size, and a string that does not fit
  sets the field `overrun` of the world.  The other buffers (`method`, `uri`,
  `version`, `params`) take parts of a line that `fgets` has cut to fit.
* `int` and `long` values are `Int`; the conversion `(int)sbuf.st_size` is the
  explicit reduction `to_int` to 32 bits.
* The world a handler runs in is a record `World`: the file system, the unread
  bytes of the client stream, what was written to the client stream, what was
  written to standard output by `LOG` and `putchar`, and the file-system calls
  made so far.
* The file system maps a path to nothing, to a non-regular node (a directory),
  or to a regular file with its content.  Whether an open for writing is
  granted is a second component of the file system.  Every regular file can be
  opened for reading.
* Two groups of definitions follow the words of the specification rather than
  the code, to be compared with it: the walk `stays_inside` through the
  components of a path, and the media type lookup `media_type_of` on the
  `extension` of the `final_component` in `media_table`.
* Loops are iterated by structural recursion over a step budget that the caller
  computes from the loop's own measure; the lemmas `copy_body_budget`,
  `scan_back_budget` and `headers_body_budget` show that a larger budget never
  changes the outcome.
-/

namespace XContents

/-! ## Bytes and C strings -/

/-- One C `char`. -/
abbrev Byte := Fin 256

/-- The bytes of a C string literal. -/
def cs (s : String) : List Byte := s.toList.map (fun c => Fin.ofNat c.toNat)

/-- The stdio constant `EOF`. -/
def EOF : Int := -1

/-- The macro `BUFSIZE`. -/
def BUFSIZE : Nat := 1024

/-- The macro `SERVER`. -/
def SERVER : List Byte := cs "XContents Web Server"

/-- Conversion of an integer value to a 32-bit `int`, as in `(int)sbuf.st_size`. -/
def to_int (n : Int) : Int := (n + 2147483648) % 4294967296 - 2147483648

/-- Conversion of an `int` to `unsigned char`, as done by `fputc` and `putchar`. -/
def to_uchar (ch : Int) : Byte := Fin.ofNat (ch % 256).toNat

/-- The conversion `%d` (and `%ld`) of `printf`. -/
def fmt_d (n : Int) : List Byte := cs (toString n)

/-- What `%s` prints from a buffer: the bytes before the first NUL. -/
def c_str (buf : List Byte) : List Byte := buf.takeWhile (fun b => b != 0)

/-! ## The world of a request -/

/-- A node of the file system: a regular file with its content, or anything
else that exists (a directory). -/
inductive Node where
  | dir : Node
  | reg (data : List Byte) : Node
deriving DecidableEq

/-- The file system below the directory the server was started in. -/
structure FS where
  /-- What `stat` finds at a path. -/
  node : List Byte → Option Node
  /-- Whether an open for writing of the path is granted. -/
  writable : List Byte → Bool

/-- Replace the node at one path. -/
def FS.set (fs : FS) (path : List Byte) (n : Node) : FS :=
  { fs with node := fun p => if p = path then some n else fs.node p }

/-- A call into the file system. -/
inductive Sys where
  | stat (path : List Byte) : Sys
  | fopen (path : List Byte) (mode : List Byte) : Sys
  | open_rdonly (path : List Byte) : Sys
deriving DecidableEq

/-- Something written to the client stream. -/
inductive Out where
  /-- The page written by `error`. -/
  | error (shortmsg longmsg cause : List Byte) : Out
  /-- The header block written by `respond`. -/
  | respond (response : List Byte) (h1 h2 h3 h4 : Option (List Byte)) : Out
  /-- The header block written by `respondOK`. -/
  | respondOK (content_length : Int) (filetype : List Byte) : Out
  /-- Raw bytes written by `fwrite`. -/
  | fwrite (data : List Byte) : Out
deriving DecidableEq

/-- Something written to standard output. -/
inductive LogItem where
  /-- One call of `LOG` (`printf`), with its formatted text. -/
  | msg (text : List Byte) : LogItem
  /-- One call of `putchar`. -/
  | putchar (b : Byte) : LogItem
deriving DecidableEq

/-- The state a request handler reads and changes. -/
structure World where
  fs : FS
  /-- Unread bytes of the client stream; `fgetc` returns `EOF` when empty. -/
  input : List Byte
  /-- Written to the client stream, oldest first. -/
  out : List Out
  /-- Written to standard output, oldest first. -/
  log : List LogItem
  /-- File-system calls made, oldest first. -/
  sys : List Sys
  /-- Whether a call has written past the end of a local buffer of `BUFSIZE`
  bytes. From then on C defines nothing; the other fields then record the run
  of the code as written, on a buffer that is large enough. -/
  overrun : Bool

/-- The macro `LOG`, after formatting. -/
def LOG (w : World) (text : List Byte) : World :=
  { w with log := w.log ++ [LogItem.msg text] }

/-- Record a file-system call. -/
def World.call (w : World) (c : Sys) : World :=
  { w with sys := w.sys ++ [c] }

/-- The line a header argument of `respond` contributes. -/
def header_line : Option (List Byte) → List Byte
  | none => []
  | some h => h ++ cs "\n"

/-- The bytes each kind of output puts on the client stream. The cookie lines
are absent: `add_cookie` and `delete_cookie` are never set. -/
def Out.render : Out → List Byte
  | Out.error shortmsg longmsg cause =>
      cs "HTTP/1.1 " ++ shortmsg ++ cs "\n"
      ++ cs "Content-type: text/html\n\n"
      ++ cs "<html><head><title>Server Error</title></head><body>"
      ++ cs "<h1>" ++ shortmsg ++ cs "</h1>"
      ++ cs "<p>" ++ longmsg ++ cs ": " ++ cause ++ cs "</p>"
      ++ cs "<hr><p><em>" ++ SERVER ++ cs "</em></p></body></html>\n"
  | Out.respond response h1 h2 h3 h4 =>
      cs "HTTP/1.1 " ++ response ++ cs "\n"
      ++ cs "Server: " ++ SERVER ++ cs "\n"
      ++ header_line h1 ++ header_line h2 ++ header_line h3 ++ header_line h4
      ++ cs "\r\n"
  | Out.respondOK content_length filetype =>
      cs "HTTP/1.1 200 OK\n"
      ++ cs "Server: " ++ SERVER ++ cs "\n"
      ++ cs "Content-length: " ++ fmt_d content_length ++ cs "\n"
      ++ cs "Content-type: " ++ filetype ++ cs "\n"
      ++ cs "\r\n"
  | Out.fwrite data => data

/-- The function `error`: an error page to the client and a log line. -/
def error (w : World) (shortmsg longmsg cause : List Byte) : World :=
  LOG { w with out := w.out ++ [Out.error shortmsg longmsg cause] }
    (cs "=> " ++ shortmsg ++ cs " " ++ cause ++ cs "\n\n")

/-- The function `respond`. -/
def respond (w : World) (response : List Byte) (h1 h2 h3 h4 : Option (List Byte)) : World :=
  LOG { w with out := w.out ++ [Out.respond response h1 h2 h3 h4] }
    (cs "=> " ++ response ++ cs "\n\n")

/-- The function `respondOK`. -/
def respondOK (w : World) (content_length : Int) (filetype : List Byte) : World :=
  LOG { w with out := w.out ++ [Out.respondOK content_length filetype] }
    (cs "=> 200 " ++ filetype ++ cs " " ++ fmt_d content_length ++ cs "\n\n")

/-! ## `mediatype` -/

/-- The libc function `rindex(s, c)`: the suffix of `s` that starts at the last
occurrence of `c`, or `none` (NULL) when `c` does not occur. -/
def rindex : List Byte → Byte → Option (List Byte)
  | [], _ => none
  | x :: xs, c =>
    match rindex xs c with
    | some t => some t
    | none => if x = c then some (x :: xs) else none

/-- The function `mediatype`. -/
def mediatype (filename : List Byte) : List Byte :=
  match rindex filename 46 with
  | none => cs "text/plain"
  | some ext =>
    if ext = cs ".html" then cs "text/html"
    else if ext = cs ".css" then cs "text/css"
    else if ext = cs ".xml" then cs "text/xml"
    else if ext = cs ".xsl" then cs "text/xsl"
    else if ext = cs ".xhtml" then cs "application/xhtml+xml"
    else if ext = cs ".js" then cs "application/javascript"
    else if ext = cs ".gif" then cs "image/gif"
    else if ext = cs ".jpg" then cs "image/jpg"
    else if ext = cs ".png" then cs "image/png"
    else if ext = cs ".svg" then cs "image/svg+xml"
    else cs "text/plain"

/-! ## stdio files -/

/-- An open stdio file on a regular file: its content and the file position. -/
structure File where
  data : List Byte
  pos : Nat
deriving DecidableEq

/-- The modes `fopen` is called with. -/
inductive Mode where
  | w : Mode
  | rplus : Mode
deriving DecidableEq

/-- The mode string of a mode. -/
def Mode.text : Mode → List Byte
  | Mode.w => cs "w"
  | Mode.rplus => cs "r+"

/-- The libc function `fopen`. Mode "w" creates or truncates a file that is not a
directory; mode "r+" opens an existing regular file. Both need the grant
`writable`. `none` is the NULL result. -/
def fopen (fs : FS) (filename : List Byte) : Mode → Option (FS × File)
  | Mode.w =>
    match fs.node filename with
    | some Node.dir => none
    | _ => if fs.writable filename then some (fs.set filename (Node.reg []), ⟨[], 0⟩) else none
  | Mode.rplus =>
    match fs.node filename with
    | some (Node.reg data) => if fs.writable filename then some (fs, ⟨data, 0⟩) else none
    | _ => none

/-- The libc function `fclose` on a written file: the content reaches the file
system. -/
def fclose (fs : FS) (filename : List Byte) (f : File) : FS :=
  fs.set filename (Node.reg f.data)

/-- Store one byte at the file position: overwrite inside the file, extend it
at its end (a position beyond the end would fill the gap with NUL bytes). -/
def File.put (f : File) (b : Byte) : File :=
  { data := if f.pos < f.data.length then f.data.set f.pos b
            else f.data ++ List.replicate (f.pos - f.data.length) 0 ++ [b],
    pos := f.pos + 1 }

/-- The libc function `fputc(ch, f)`. -/
def fputc (ch : Int) (f : File) : File := f.put (to_uchar ch)

/-- The libc function `fputs(s, f)`, also used for `fprintf` after formatting. -/
def fputs (s : List Byte) (f : File) : File := s.foldl File.put f

/-- The libc function `fgetc` on an open file. -/
def File.getc (f : File) : Int × File :=
  match f.data[f.pos]? with
  | some b => ((b.val : Int), { f with pos := f.pos + 1 })
  | none => (EOF, f)

/-- The libc call `fseek(f, offset, SEEK_END)`: fails with -1, leaving the
position alone, when the target lies before the start of the file. -/
def fseek_end (f : File) (offset : Int) : Int × File :=
  if 0 ≤ (f.data.length : Int) + offset then
    (0, { f with pos := ((f.data.length : Int) + offset).toNat })
  else (-1, f)

/-- The libc function `fgetc` on the client stream. -/
def fgetc (input : List Byte) : Int × List Byte :=
  match input with
  | [] => (EOF, [])
  | b :: rest => ((b.val : Int), rest)

/-! ## The body copy loop of `do_put` and `do_post` -/

/-- The variables of the loop
`while (content_length-- && ch!=EOF) { ch= fgetc(stream); fputc(ch, putfile); putchar(ch); }`. -/
structure Copy where
  content_length : Int
  ch : Int
  input : List Byte
  putfile : File
  /-- The bytes given to `putchar`, oldest first. -/
  echo : List Byte

/-- The copy loop. Each round evaluates the loop test, which decrements
`content_length` whatever its outcome, and, when the test holds, runs the
body once. The first argument bounds the number of rounds. -/
def copy_body : Nat → Copy → Copy
  | 0, st => st
  | budget + 1, st =>
    let st1 := { st with content_length := st.content_length - 1 }
    if st.content_length ≠ 0 ∧ st.ch ≠ EOF then
      let r := fgetc st1.input
      copy_body budget
        { st1 with ch := r.1, input := r.2, putfile := fputc r.1 st1.putfile,
                   echo := st1.echo ++ [to_uchar r.1] }
    else st1

/-- The whole copy loop, entered with `ch=' '`: one round per unread byte, one
for the read that meets end-of-stream, one for the test that ends the loop. -/
def copy_loop (content_length : Int) (input : List Byte) (putfile : File) : Copy :=
  copy_body (input.length + 2) ⟨content_length, 32, input, putfile, []⟩

/-- What the tail shared by `do_put` and `do_post` does after the loop:
`fclose`, the mismatch diagnostic, and the 201 or 204 response. -/
def finish_write (w : World) (filename : List Byte) (created : Bool)
    (content_length : Int) (putfile : File) : World :=
  let w := { w with fs := fclose w.fs filename putfile }
  let w := if content_length ≠ -1 then LOG w (cs "Content-length mismatch?\n") else w
  let w := LOG w (cs "\n\n")
  if created then respond w (cs "201 Created") (some (cs "Content-length: 0")) none none none
  else respond w (cs "204 No Content") none none none none

/-! ## `do_get_head` and `do_put` -/

/-- The function `do_get_head`. -/
def do_get_head (w : World) (filename : List Byte) (is_get : Bool) : World :=
  let w := w.call (Sys.stat filename)
  match w.fs.node filename with
  | none => error w (cs "404 Not found") (cs "Server couldn't find this file") filename
  | some Node.dir => error w (cs "403 Forbidden") (cs "No access to directory") filename
  | some (Node.reg data) =>
    let w := respondOK w (to_int data.length) (mediatype filename)
    if is_get then
      let w := w.call (Sys.open_rdonly filename)
      { w with out := w.out ++ [Out.fwrite data] }
    else w

/-- The function `do_put`. -/
def do_put (w : World) (filename : List Byte) (content_length : Int) : World :=
  let created := (w.fs.node filename).isNone
  let w := w.call (Sys.stat filename)
  let w := w.call (Sys.fopen filename Mode.w.text)
  match fopen w.fs filename Mode.w with
  | some (fs, putfile) =>
    let w := { w with fs := fs }
    let w :=
      if created then
        LOG w (cs "=> create " ++ fmt_d content_length ++ cs " " ++ filename ++ cs "\n\n")
      else
        LOG w (cs "=> overwrite " ++ fmt_d content_length ++ cs " " ++ filename ++ cs "\n\n")
    let st := copy_loop content_length w.input putfile
    let w := { w with input := st.input, log := w.log ++ st.echo.map LogItem.putchar }
    finish_write w filename created st.content_length st.putfile
  | none => error w (cs "403 Forbidden") (cs "Couldn't write file") filename

/-! ## `do_post` -/

/-- The variables of the backward search loop of `do_post`. -/
structure Scan where
  ch : Int
  err : Int
  seek : Int
  putfile : File

/-- The loop
`while (ch!='<' && err!=-1) { seek-=1L; err=fseek(putfile, seek, SEEK_END); if (err != -1) ch= fgetc(putfile); }`.
The first argument bounds the number of rounds. -/
def scan_back : Nat → Scan → Scan
  | 0, st => st
  | budget + 1, st =>
    if st.ch ≠ 60 ∧ st.err ≠ -1 then
      let seek := st.seek - 1
      let r := fseek_end st.putfile seek
      if r.1 ≠ -1 then
        let g := r.2.getc
        scan_back budget ⟨g.1, r.1, seek, g.2⟩
      else scan_back budget ⟨st.ch, r.1, seek, r.2⟩
    else st

/-- The whole search, entered with `ch=' '`, `err=0` and `seek=-3L`: at most one
round per byte of the file, one for the seek that fails, one for the test that
ends the loop. -/
def scan_loop (putfile : File) : Scan :=
  scan_back (putfile.data.length + 2) ⟨32, 0, -3, putfile⟩

/-- What a call of `fscanf` into `char closetag[BUFSIZE]` leaves. -/
structure Scanned where
  /-- The string in `closetag` afterwards. -/
  closetag : List Byte
  /-- Whether the call wrote past the end of `closetag`. -/
  overflow : Bool
deriving DecidableEq

/-- The call `fscanf(putfile, "/%[^>]>", closetag)`. The buffer keeps its old
content when the next byte is not a slash or when no byte other than the
closing angle bracket follows the slash. The conversion has no field width:
a run that, with its terminating NUL, does not fit in the `BUFSIZE` bytes of
`closetag` is written past its end. -/
def fscanf_closetag (f : File) (closetag : List Byte) : Scanned :=
  match f.data.drop f.pos with
  | [] => ⟨closetag, false⟩
  | c :: rest =>
    if c = 47 then
      let run := rest.takeWhile (fun b => b != 62)
      if run = [] then ⟨closetag, false⟩ else ⟨run, decide (BUFSIZE ≤ run.length)⟩
    else ⟨closetag, false⟩

/-- What `do_post` has prepared when the copy loop starts. -/
structure Prepared where
  log : List LogItem
  err : Int
  closetag : List Byte
  putfile : File
  /-- Whether `fscanf` wrote past the end of `closetag`. -/
  overflow : Bool

/-- Lines 353 to 376 of `do_post`: the opening tag of a new file, or the search
for the place to write in an existing one. The argument `closetag0` is the
indeterminate initial content of the local buffer `closetag`. -/
def prepare_post (created : Bool) (filename : List Byte) (content_length : Int)
    (closetag0 : List Byte) (putfile : File) : Prepared :=
  if created then
    { log := [LogItem.msg
        (cs "=> create " ++ fmt_d content_length ++ cs " " ++ filename ++ cs "\n\n")],
      err := 0,
      closetag := cs "post",
      putfile := fputs (cs "<post>\n") putfile,
      overflow := false }
  else
    let sc := scan_loop putfile
    let append :=
      LogItem.msg (cs "=> append " ++ fmt_d content_length ++ cs " " ++ filename ++ cs "\n\n")
    if sc.err = -1 then
      { log := [LogItem.msg (cs "... no closing tag at " ++ fmt_d sc.seek ++ cs "\n"), append],
        err := sc.err,
        closetag := closetag0,
        putfile := (fseek_end sc.putfile 0).2,
        overflow := false }
    else
      let scanned := fscanf_closetag sc.putfile closetag0
      { log := [LogItem.msg (cs "... tag=" ++ c_str scanned.closetag ++ cs " at "
                  ++ fmt_d sc.seek ++ cs "\n"), append],
        err := sc.err,
        closetag := scanned.closetag,
        putfile := (fseek_end sc.putfile sc.seek).2,
        overflow := scanned.overflow }

/-- The function `do_post`. The last argument is the indeterminate initial
content of the local buffer `closetag`. -/
def do_post (w : World) (filename : List Byte) (content_length : Int)
    (closetag0 : List Byte) : World :=
  let created := (w.fs.node filename).isNone
  let w := w.call (Sys.stat filename)
  let mode := if created then Mode.w else Mode.rplus
  let w := w.call (Sys.fopen filename mode.text)
  match fopen w.fs filename mode with
  | some (fs, putfile) =>
    let w := { w with fs := fs }
    let pr := prepare_post created filename content_length closetag0 putfile
    let w := { w with log := w.log ++ pr.log, overrun := w.overrun || pr.overflow }
    let st := copy_loop content_length w.input pr.putfile
    let w := { w with input := st.input, log := w.log ++ st.echo.map LogItem.putchar }
    let putfile :=
      if pr.err ≠ -1 then fputs (cs "\n</" ++ c_str pr.closetag ++ cs ">\n") st.putfile
      else st.putfile
    finish_write w filename created st.content_length putfile
  | none => error w (cs "403 Forbidden") (cs "Couldn't write file") filename

/-! ## `parse_input` -/

/-- The libc predicate `isspace` in the C locale. -/
def isspace (b : Byte) : Bool := b = 32 || (9 ≤ b.val && b.val ≤ 13)

/-- One conversion `%s` of `sscanf`: skip white space, then take the longest
run of other bytes. `none` when the input ends before a byte is taken.
The result is the token and the input left. -/
def scan_s (s : List Byte) : Option (List Byte × List Byte) :=
  let s := s.dropWhile isspace
  let tok := s.takeWhile (fun b => !isspace b)
  if tok = [] then none else some (tok, s.dropWhile (fun b => !isspace b))

/-- The libc function `strstr` as a test: does `needle` occur in `hay`. -/
def strstr (hay needle : List Byte) : Bool :=
  match hay with
  | [] => needle.isEmpty
  | x :: xs => needle.isPrefixOf (x :: xs) || strstr xs needle

/-- Where the model of `parse_input` stops because the C code reads memory it
never wrote. -/
inductive Fault where
  /-- The request line has fewer than two fields: `uri` is read uninitialised. -/
  | unset_uri : Fault
  /-- The path is empty: `uri[strlen(uri)-1]` lies outside the string. -/
  | bad_index : Fault
deriving DecidableEq

/-- The fields `parse_input` hands back to `main`. -/
structure Request where
  method : List Byte
  filename : List Byte
  params : List Byte
deriving DecidableEq

/-- The function `parse_input`, on the string in `char buf[BUFSIZE]` that
`fgets` stored, which has at most `BUFSIZE - 1` bytes; so the fields scanned
from it fit in `method`, `uri` and `version`. The HTTP version, the third field, is scanned and ignored. The
filename is put together by `strcpy` and `strcat` in `char filename[BUFSIZE]`
of `main`, with no check of its length: the bytes that do not fit are written
on past its end, into `params`, the buffer that follows it, and replace the
string there. The filename handed back is the string read from the start of
`filename`. -/
def parse_input (buf : List Byte) : Except Fault Request :=
  match scan_s ((c_str buf).take (BUFSIZE - 1)) with
  | none => Except.error Fault.unset_uri
  | some (method, rest) =>
    match scan_s rest with
    | none => Except.error Fault.unset_uri
    | some (uri0, _) =>
      -- p = index(uri, '?'); params is what follows it, uri is cut there
      let params := (uri0.dropWhile (fun b => b != 63)).drop 1
      let uri := uri0.takeWhile (fun b => b != 63)
      let filename := cs "."
      let filename := if uri.head? ≠ some 47 then filename ++ cs "/" else filename
      let filename := filename ++ uri
      match uri.getLast? with
      | none => Except.error Fault.bad_index
      | some last =>
        let filename := if last = 47 then filename ++ cs "index.html" else filename
        let params := if BUFSIZE ≤ filename.length then filename.drop BUFSIZE else params
        Except.ok ⟨method, filename, params⟩

/-! ## `headers` -/

/-- The bytes `fgets` stores: at most the given number, ending with the first
newline when it comes earlier. The result is the line and the input left. -/
def fgets_take : Nat → List Byte → List Byte × List Byte
  | 0, s => ([], s)
  | _ + 1, [] => ([], [])
  | k + 1, b :: s =>
    if b = 10 then ([b], s) else (b :: (fgets_take k s).1, (fgets_take k s).2)

/-- The libc function `fgets(buf, size, stream)`; `none` is the NULL result at
end-of-stream. -/
def fgets (size : Nat) (input : List Byte) : Option (List Byte × List Byte) :=
  if input = [] then none else some (fgets_take (size - 1) input)

/-- The test `strncmp(a, b, n)==0`. -/
def strncmp_eq (a b : List Byte) (n : Nat) : Bool :=
  (c_str a).take n = (c_str b).take n

/-- The libc predicate `isdigit`. -/
def isdigit (b : Byte) : Bool := 48 ≤ b.val && b.val ≤ 57

/-- The value of a run of decimal digits. -/
def digits_value (ds : List Byte) : Nat :=
  ds.foldl (fun n d => 10 * n + (d.val - 48)) 0

/-- One conversion `%d` of `sscanf`: skip white space, an optional sign, then
a non-empty run of digits; `none` when there is no digit. A value outside the
range of `int` is reduced with `to_int`. -/
def scan_d (s : List Byte) : Option Int :=
  let s := s.dropWhile isspace
  let neg := s.head? = some 45
  let s := if s.head? = some 45 ∨ s.head? = some 43 then s.drop 1 else s
  let ds := s.takeWhile isdigit
  if ds = [] then none
  else some (to_int (if neg then -(digits_value ds : Int) else (digits_value ds : Int)))

/-- The libc function `strstr`: the part of `hay` from the first occurrence of
`needle` on, or `none` (NULL). -/
def strstr_at (hay needle : List Byte) : Option (List Byte) :=
  match hay with
  | [] => if needle.isEmpty then some [] else none
  | x :: xs => if needle.isPrefixOf (x :: xs) then some (x :: xs) else strstr_at xs needle

/-- The function `cookie_read`: the new content of `value`, and the log line
when the cookie is present. -/
def cookie_read (buf name value : List Byte) : List Byte × List LogItem :=
  let format := cs " " ++ name ++ cs "="
  match strstr_at (c_str buf) format with
  | none => (value, [])
  | some place =>
    let run := (place.drop format.length).takeWhile (fun b => b != 32 && b != 59)
    let value := if run = [] then value else run
    (value, [LogItem.msg (cs "... cookie=" ++ c_str value ++ cs "\n")])

/-- The macro `COOKIE`. -/
def COOKIE : List Byte := cs "XContents"

/-- The variables of the loop of `headers`. The global `content_type` is left
out: nothing reads it. -/
structure Headers where
  buf : List Byte
  /-- Whether `p` is NULL. -/
  p_null : Bool
  content_length : Int
  cookie_value : List Byte
  input : List Byte
  log : List LogItem

/-- The loop of `headers`. The first argument bounds the number of rounds. -/
def headers_body : Nat → Bool → Headers → Headers
  | 0, _, st => st
  | budget + 1, is_putpost, st =>
    if c_str st.buf ≠ cs "\r\n" ∧ st.p_null = false then
      let st :=
        match fgets BUFSIZE st.input with
        | none => { st with p_null := true }
        | some (line, rest) => { st with buf := line, input := rest }
      let st := { st with log := st.log ++ [LogItem.msg (cs " | " ++ c_str st.buf)] }
      let st :=
        if is_putpost && strncmp_eq st.buf (cs "Content-Length: ") 16 then
          match scan_d ((c_str st.buf).drop 16) with
          | some n => { st with content_length := n }
          | none => st
        else if strncmp_eq st.buf (cs "Cookie: ") 8 then
          let r := cookie_read st.buf COOKIE st.cookie_value
          { st with cookie_value := r.1, log := st.log ++ r.2 }
        else st
      headers_body budget is_putpost st
    else st

/-- The function `headers`: the content length, and the world after the header
lines have been read. -/
def headers (w : World) (is_putpost : Bool) : Int × World :=
  let st := headers_body (w.input.length + 2) is_putpost ⟨[], false, 0, [], w.input, w.log⟩
  (st.content_length, { w with input := st.input, log := st.log })

/-! ## The dispatcher in `main` -/

/-- The libc function `tolower` in the C locale. -/
def tolower (b : Byte) : Byte := if 65 ≤ b.val ∧ b.val ≤ 90 then b + 32 else b

/-- The test `strcasecmp(a, b) == 0`. -/
def strcasecmp_eq (a b : List Byte) : Bool := a.map tolower = b.map tolower

/-- The function `do_options`. -/
def do_options (w : World) : World :=
  respond w (cs "204 No Content\n")
    (some (cs "Access-Control-Allow-Origin: *"))
    (some (cs "Access-Control-Allow-Methods: PUT, GET, POST, HEAD, OPTIONS"))
    (some (cs "Access-Control-Allow-Headers: *"))
    (some (cs "Allow: GET, PUT, POST, HEAD, OPTIONS"))

/-- The method flags set in `main`. -/
structure Flags where
  is_get : Bool
  is_head : Bool
  is_put : Bool
  is_post : Bool
  is_options : Bool
deriving DecidableEq

/-- The chain of `strcasecmp` tests in `main`. -/
def method_flags (method : List Byte) : Flags :=
  if strcasecmp_eq method (cs "GET") then ⟨true, false, false, false, false⟩
  else if strcasecmp_eq method (cs "HEAD") then ⟨false, true, false, false, false⟩
  else if strcasecmp_eq method (cs "PUT") then ⟨false, false, true, false, false⟩
  else if strcasecmp_eq method (cs "POST") then ⟨false, false, false, true, false⟩
  else if strcasecmp_eq method (cs "OPTIONS") then ⟨false, false, false, false, true⟩
  else ⟨false, false, false, false, false⟩

/-- One round of the loop of `main`, from the request line on: what the server
does with one connection. The argument `closetag0` is handed to `do_post`. A
filename that `parse_input` could not fit in `filename[BUFSIZE]` is recorded in
`overrun`. -/
def main_connection (w : World) (closetag0 : List Byte) : Except Fault World :=
  let w := LOG w (cs "WAITING\n")
  match fgets BUFSIZE w.input with
  | none => Except.ok w
  | some (buf, rest) =>
    let w := LOG { w with input := rest } (c_str buf)
    match parse_input buf with
    | Except.error e => Except.error e
    | Except.ok rq =>
      let w := { w with overrun := w.overrun || decide (BUFSIZE ≤ rq.filename.length) }
      if strstr rq.filename (cs "/../") then
        Except.ok (error w (cs "400 Bad Request") (cs "URI contains '/../'") rq.filename)
      else
        let fl := method_flags rq.method
        let hd := headers w (fl.is_put || fl.is_post)
        let content_length := hd.1
        let w := hd.2
        if fl.is_get || fl.is_head then Except.ok (do_get_head w rq.filename fl.is_get)
        else if fl.is_put then Except.ok (do_put w rq.filename content_length)
        else if fl.is_post then Except.ok (do_post w rq.filename content_length closetag0)
        else if fl.is_options then Except.ok (do_options w)
        else Except.ok (error w (cs "501 Not Implemented")
          (cs "Server does not implement this method") rq.method)

/-! ## Worlds used to exercise the handlers -/

/-- A file system with no node, in which every open for writing is granted. -/
def empty_fs : FS := ⟨fun _ => none, fun _ => true⟩

/-- A world at the start of a connection on `empty_fs`, with the given unread
input. -/
def start (input : List Byte) : World := ⟨empty_fs, input, [], [], [], false⟩

/-- The bodies of successive posts, each followed by a newline. -/
def lines : List (List Byte) → List Byte
  | [] => []
  | B :: Bs => B ++ cs "\n" ++ lines Bs

/-- Successive calls of `do_post` on one path. Each call is given a body, which
is all its stream supplies and whose length is its content length, and its own
initial content of `closetag`. -/
def post_all (w : World) (filename : List Byte) : List (List Byte × List Byte) → World
  | [] => w
  | (B, c0) :: more =>
    post_all (do_post { w with input := B } filename (B.length : Int) c0) filename more

/-- A world whose file system holds one node, the regular file "./doc" with the
given content, and grants every open for writing. -/
def doc_world (D input : List Byte) : World :=
  { start input with fs := empty_fs.set (cs "./doc") (Node.reg D) }

/-- A document of 2147483648 NUL bytes, one byte more than the largest `int`. -/
def big_doc : List Byte := List.replicate 2147483648 0

/-! ## Reading a path as a walk from the root -/

/-- The components of a path: the runs between its slashes. -/
def components : List Byte → List (List Byte)
  | [] => [[]]
  | b :: s =>
    if b = 47 then [] :: components s
    else
      match components s with
      | [] => [[b]]
      | c :: more => (b :: c) :: more

/-- The level, counted from the root, after one more component: an empty
component and "." stay, ".." goes one level up, a name goes one level down. -/
def level_after (level : Int) (c : List Byte) : Int :=
  if c = [] ∨ c = cs "." then level
  else if c = cs ".." then level - 1
  else level + 1

/-- Whether a walk through the components, started at the given level, never
reaches a level above the root. -/
def walk_inside : Int → List (List Byte) → Bool
  | _, [] => true
  | level, c :: more =>
    decide (0 ≤ level_after level c) && walk_inside (level_after level c) more

/-- Whether a path, read from the root, never rises above the root. -/
def stays_inside (path : List Byte) : Bool := walk_inside 0 (components path)

/-- The file-system calls of a round of `main`; none when the model stops at a
fault. -/
def sys_of : Except Fault World → List Sys
  | Except.ok w => w.sys
  | Except.error _ => []

/-- What a round of `main` wrote to the client; nothing when the model stops at
a fault. -/
def out_of : Except Fault World → List Out
  | Except.ok w => w.out
  | Except.error _ => []

/-- The final component of a path: what follows its last slash, or the whole
path when it has no slash. -/
def final_component (path : List Byte) : List Byte :=
  (path.reverse.takeWhile (fun b => b != 47)).reverse

/-- The extension of the file name of a path: what follows the last dot of
the final component, or `none` when the final component has no dot. -/
def extension (path : List Byte) : Option (List Byte) :=
  if 46 ∈ final_component path then
    some (((final_component path).reverse.takeWhile (fun b => b != 46)).reverse)
  else none

/-- The fixed table from extensions to media types. -/
def media_table : List (List Byte × List Byte) :=
  [(cs "html", cs "text/html"),
   (cs "css", cs "text/css"),
   (cs "xml", cs "text/xml"),
   (cs "xsl", cs "text/xsl"),
   (cs "xhtml", cs "application/xhtml+xml"),
   (cs "js", cs "application/javascript"),
   (cs "gif", cs "image/gif"),
   (cs "jpg", cs "image/jpg"),
   (cs "png", cs "image/png"),
   (cs "svg", cs "image/svg+xml")]

/-- Exact-match lookup in a table, with the default label "text/plain" for an
extension the table does not list. -/
def lookup_type : List (List Byte × List Byte) → List Byte → List Byte
  | [], _ => cs "text/plain"
  | (k, v) :: more, e => if e = k then v else lookup_type more e

/-- The media type the specification gives a path: the default when the file
name has no extension, the table entry or the default otherwise. -/
def media_type_of (path : List Byte) : List Byte :=
  match extension path with
  | none => cs "text/plain"
  | some e => lookup_type media_table e

/-! ## Lemmas -/

theorem to_uchar_val (b : Byte) : to_uchar (b.val : Int) = b := by
  apply Fin.ext
  have h := b.isLt
  simp only [to_uchar, Fin.ofNat]
  omega

theorem put_data (f : File) (b : Byte) (h : f.pos ≤ f.data.length) :
    f.put b = ⟨f.data.take f.pos ++ b :: f.data.drop (f.pos + 1), f.pos + 1⟩ := by
  unfold File.put
  by_cases hlt : f.pos < f.data.length
  · simp only [hlt, if_true]
    rw [List.set_eq_take_append_cons_drop]
    simp [hlt]
  · have he : f.pos = f.data.length := by omega
    simp [he]

/-- Writing a string at a position inside the file, or at its end, replaces
the bytes it covers and keeps the others. -/
theorem fputs_at (s : List Byte) (f : File) (h : f.pos ≤ f.data.length) :
    fputs s f = ⟨f.data.take f.pos ++ s ++ f.data.drop (f.pos + s.length), f.pos + s.length⟩ := by
  induction s generalizing f with
  | nil => cases f; simp [fputs]
  | cons b s ih =>
    have hp := put_data f b h
    have h2 : (f.put b).pos ≤ (f.put b).data.length := by
      rw [hp]; simp; omega
    have := ih (f.put b) h2
    simp only [fputs, List.foldl_cons] at this ⊢
    rw [this, hp]
    have e1 : List.take (f.pos + 1) (List.take f.pos f.data ++ b :: List.drop (f.pos + 1) f.data)
        = List.take f.pos f.data ++ [b] := by
      rw [List.take_append_eq_append_take]
      simp [List.length_take, Nat.min_eq_left h]
    have e2 : List.drop (f.pos + 1 + s.length)
        (List.take f.pos f.data ++ b :: List.drop (f.pos + 1) f.data)
        = List.drop (f.pos + (s.length + 1)) f.data := by
      rw [List.drop_append_eq_append_drop]
      have hl : (List.take f.pos f.data).length = f.pos := by simp [h]
      rw [List.drop_of_length_le (by omega), hl]
      have : f.pos + 1 + s.length - f.pos = s.length + 1 := by omega
      rw [this]
      simp [List.drop_drop]
      congr 1; omega
    simp only [e1, e2, List.length_cons]
    simp
    omega

theorem copy_body_full (B rest : List Byte) : ∀ (n : Nat) (ch : Int) (f : File) (e : List Byte),
    B.length + 1 ≤ n → ch ≠ EOF →
    ∃ ch1, copy_body n ⟨(B.length : Int), ch, B ++ rest, f, e⟩
      = ⟨-1, ch1, rest, fputs B f, e ++ B⟩ := by
  induction B with
  | nil =>
    intro n ch f e hn _
    obtain ⟨k, rfl⟩ : ∃ k, n = k + 1 := ⟨n - 1, by omega⟩
    exact ⟨ch, by simp [copy_body, fputs]⟩
  | cons b B ih =>
    intro n ch f e hn hch
    obtain ⟨k, rfl⟩ : ∃ k, n = k + 1 := ⟨n - 1, by omega⟩
    have hk : B.length + 1 ≤ k := by simp at hn; omega
    have hb : ((b.val : Nat) : Int) ≠ EOF := by simp [EOF]
    obtain ⟨ch1, h1⟩ := ih k (b.val : Int) (f.put b) (e ++ [b]) hk hb
    refine ⟨ch1, ?_⟩
    have hne : ((B.length : Int) + 1 ≠ 0) := by omega
    simp only [copy_body, List.length_cons, Nat.cast_add, Nat.cast_one, ne_eq, hne,
      not_false_eq_true, hch, and_self, if_true, List.cons_append, fgetc, fputc, to_uchar_val]
    simp only [add_sub_cancel_right, h1, fputs, List.foldl_cons, List.append_assoc,
      List.singleton_append]

theorem copy_loop_full (B rest : List Byte) (f : File) :
    ∃ ch1, copy_loop (B.length : Int) (B ++ rest) f = ⟨-1, ch1, rest, fputs B f, B⟩ := by
  have := copy_body_full B rest ((B ++ rest).length + 2) 32 f [] (by simp; omega) (by simp [EOF])
  simpa [copy_loop] using this

theorem fopen_w_some (fs : FS) (filename : List Byte) (h : (fopen fs filename Mode.w).isSome) :
    fopen fs filename Mode.w = some (fs.set filename (Node.reg []), ⟨[], 0⟩) := by
  cases hn : fs.node filename with
  | none => cases hw : fs.writable filename <;> simp_all [fopen]
  | some nd => cases nd <;> cases hw : fs.writable filename <;> simp_all [fopen]

theorem fopen_w_writable (fs : FS) (filename : List Byte)
    (h : (fopen fs filename Mode.w).isSome) : fs.writable filename = true := by
  cases hn : fs.node filename with
  | none => cases hw : fs.writable filename <;> simp_all [fopen]
  | some nd => cases nd <;> cases hw : fs.writable filename <;> simp_all [fopen]

theorem do_put_full (w : World) (filename B rest : List Byte)
    (hopen : (fopen w.fs filename Mode.w).isSome) :
    (do_put { w with input := B ++ rest } filename (B.length : Int)).fs.node filename
        = some (Node.reg B)
    ∧ (do_put { w with input := B ++ rest } filename (B.length : Int)).input = rest
    ∧ (do_put { w with input := B ++ rest } filename (B.length : Int)).out
        = w.out ++ [if (w.fs.node filename).isNone
            then Out.respond (cs "201 Created") (some (cs "Content-length: 0")) none none none
            else Out.respond (cs "204 No Content") none none none none]
    ∧ (do_put { w with input := B ++ rest } filename (B.length : Int)).fs.writable
        = w.fs.writable := by
  obtain ⟨ch1, hc⟩ := copy_loop_full B rest ⟨[], 0⟩
  have hf := fopen_w_some w.fs filename hopen
  have hputs : fputs B ⟨[], 0⟩ = ⟨B, B.length⟩ := by
    rw [fputs_at B ⟨[], 0⟩ (by simp)]; simp
  simp only [do_put, World.call, hf]
  refine ⟨?_, ?_, ?_, ?_⟩
  · by_cases hc1 : (w.fs.node filename).isNone <;>
      simp [hc1, LOG, hc, hputs, finish_write, fclose, FS.set, respond]
  · by_cases hc1 : (w.fs.node filename).isNone <;>
      simp [hc1, LOG, hc, hputs, finish_write, fclose, FS.set, respond]
  · by_cases hc1 : (w.fs.node filename).isNone <;>
      simp [hc1, LOG, hc, hputs, finish_write, fclose, FS.set, respond]
  · by_cases hc1 : (w.fs.node filename).isNone <;>
      simp [hc1, LOG, hc, hputs, finish_write, fclose, FS.set, respond]

theorem fseek_end_ok (f : File) (off : Int) (p : Nat) (h : (f.data.length : Int) + off = p) :
    fseek_end f off = (0, ⟨f.data, p⟩) := by
  unfold fseek_end
  rw [h]
  simp

theorem fseek_end_fail (f : File) (off : Int) (h : (f.data.length : Int) + off < 0) :
    fseek_end f off = (-1, f) := by
  unfold fseek_end
  simp [not_le.mpr h]

theorem getc_some (f : File) (b : Byte) (h : f.data[f.pos]? = some b) :
    f.getc = ((b.val : Int), ⟨f.data, f.pos + 1⟩) := by
  unfold File.getc
  rw [h]

theorem byte_ne_cast (b c : Byte) (h : b ≠ c) : ((b.val : Nat) : Int) ≠ ((c.val : Nat) : Int) := by
  intro e
  apply h
  apply Fin.ext
  exact_mod_cast e

theorem scan_back_stop (n : Nat) (err seek : Int) (f : File) :
    scan_back (n + 1) ⟨60, err, seek, f⟩ = ⟨60, err, seek, f⟩ := by
  simp [scan_back]

theorem scan_back_found (D pre tail : List Byte) (hD : D = pre ++ 60 :: tail) :
    ∀ (j n m : Nat) (ch : Int) (pos : Nat),
      ch ≠ 60 → m + j = tail.length → (∀ i, i < j → tail[i]? ≠ some 60) → j + 2 ≤ n →
      scan_back n ⟨ch, 0, -(m : Int), ⟨D, pos⟩⟩
        = ⟨60, 0, -((tail.length : Int) + 1), ⟨D, pre.length + 1⟩⟩ := by
  have hL : (D.length : Int) = pre.length + 1 + tail.length := by
    rw [hD]; simp; omega
  intro j
  induction j with
  | zero =>
    intro n m ch pos hch hm _ hn
    obtain ⟨k, rfl⟩ : ∃ k, n = k + 2 := ⟨n - 2, by omega⟩
    have hs : fseek_end ⟨D, pos⟩ (-(m : Int) - 1) = (0, ⟨D, pre.length⟩) :=
      fseek_end_ok ⟨D, pos⟩ _ _ (by simp only [hL]; omega)
    have hg : (⟨D, pre.length⟩ : File).getc = (((60 : Byte).val : Int), ⟨D, pre.length + 1⟩) :=
      getc_some _ _ (by
        show D[pre.length]? = some 60
        rw [hD, List.getElem?_append_right (le_refl _)]; simp)
    have hmm : -(m : Int) - 1 = -((tail.length : Int) + 1) := by omega
    rw [scan_back]
    simp only [ne_eq, hch, not_false_eq_true, true_and, hs, hg]
    simp only [hmm]
    exact scan_back_stop k _ _ _
  | succ j ih =>
    intro n m ch pos hch hm hall hn
    obtain ⟨k, rfl⟩ : ∃ k, n = k + 1 := ⟨n - 1, by omega⟩
    have hjl : j < tail.length := by omega
    have hs : fseek_end ⟨D, pos⟩ (-(m : Int) - 1) = (0, ⟨D, pre.length + 1 + j⟩) :=
      fseek_end_ok ⟨D, pos⟩ _ _ (by simp only [hL]; push_cast; omega)
    have hget : D[pre.length + 1 + j]? = some tail[j] := by
      rw [hD, List.getElem?_append_right (by omega)]
      have : pre.length + 1 + j - pre.length = j + 1 := by omega
      rw [this]
      simp [hjl]
    have hg := getc_some ⟨D, pre.length + 1 + j⟩ tail[j] hget
    have hne : tail[j] ≠ (60 : Byte) := by
      intro e
      exact hall j (by omega) (by simp [hjl, e])
    have hne2 : ((tail[j].val : Nat) : Int) ≠ 60 := byte_ne_cast _ _ hne
    have hmm : -(m : Int) - 1 = -((m + 1 : Nat) : Int) := by push_cast; omega
    rw [scan_back]
    simp only [ne_eq, hch, not_false_eq_true, true_and, hs, hg]
    simp only [hmm]
    exact ih k (m + 1) _ _ hne2 (by omega) (fun i hi => hall i (by omega)) (by omega)

theorem scan_back_none (D : List Byte) :
    ∀ (j n m : Nat) (ch : Int) (pos : Nat),
      ch ≠ 60 → j = D.length - m → (∀ i, i < j → D[i]? ≠ some 60) → j + 2 ≤ n →
      ∃ ch1 seek1 pos1,
        scan_back n ⟨ch, 0, -(m : Int), ⟨D, pos⟩⟩ = ⟨ch1, -1, seek1, ⟨D, pos1⟩⟩ := by
  intro j
  induction j with
  | zero =>
    intro n m ch pos hch hm _ hn
    obtain ⟨k, rfl⟩ : ∃ k, n = k + 2 := ⟨n - 2, by omega⟩
    have hs : fseek_end ⟨D, pos⟩ (-(m : Int) - 1) = (-1, ⟨D, pos⟩) :=
      fseek_end_fail ⟨D, pos⟩ _ (by simp only; omega)
    refine ⟨ch, -(m : Int) - 1, pos, ?_⟩
    rw [scan_back]
    simp only [ne_eq, hch, not_false_eq_true, true_and, hs]
    simp [scan_back]
  | succ j ih =>
    intro n m ch pos hch hm hall hn
    obtain ⟨k, rfl⟩ : ∃ k, n = k + 1 := ⟨n - 1, by omega⟩
    have hjl : j < D.length := by omega
    have hs : fseek_end ⟨D, pos⟩ (-(m : Int) - 1) = (0, ⟨D, j⟩) :=
      fseek_end_ok ⟨D, pos⟩ _ _ (by simp only; omega)
    have hget : D[j]? = some D[j] := by simp [hjl]
    have hg := getc_some ⟨D, j⟩ D[j] hget
    have hne : D[j] ≠ (60 : Byte) := by
      intro e
      exact hall j (by omega) (by simp [hjl, e])
    have hne2 : ((D[j].val : Nat) : Int) ≠ 60 := byte_ne_cast _ _ hne
    have hmm : -(m : Int) - 1 = -((m + 1 : Nat) : Int) := by push_cast; omega
    rw [scan_back]
    simp only [ne_eq, hch, not_false_eq_true, true_and, hs, hg]
    simp only [hmm]
    exact ih k (m + 1) _ _ hne2 (by omega) (fun i hi => hall i (by omega)) (by omega)

/-- The search selects a `<` that has at least three bytes after it and no
`<` between it and the last three bytes. -/
theorem scan_loop_found (pre tail : List Byte) (h3 : 3 ≤ tail.length)
    (hno : ∀ i, i + 3 < tail.length → tail[i]? ≠ some 60) :
    scan_loop ⟨pre ++ 60 :: tail, 0⟩
      = ⟨60, 0, -((tail.length : Int) + 1), ⟨pre ++ 60 :: tail, pre.length + 1⟩⟩ := by
  unfold scan_loop
  have := scan_back_found (pre ++ 60 :: tail) pre tail rfl (tail.length - 3)
    ((pre ++ 60 :: tail).length + 2) 3 32 0 (by decide) (by omega)
    (fun i hi => hno i (by omega)) (by simp; omega)
  simpa using this

/-- The search fails when no `<` has at least three bytes after it. -/
theorem scan_loop_none (D : List Byte) (hno : ∀ i, i + 3 < D.length → D[i]? ≠ some 60) :
    ∃ ch1 seek1 pos1, scan_loop ⟨D, 0⟩ = ⟨ch1, -1, seek1, ⟨D, pos1⟩⟩ := by
  unfold scan_loop
  have := scan_back_none D (D.length - 3) (D.length + 2) 3 32 0 (by decide) rfl
    (fun i hi => hno i (by omega)) (by omega)
  simpa using this

theorem prepare_post_found (filename c0 pre tail : List Byte) (n : Int) (h3 : 3 ≤ tail.length)
    (hno : ∀ i, i + 3 < tail.length → tail[i]? ≠ some 60) :
    (prepare_post false filename n c0 ⟨pre ++ 60 :: tail, 0⟩).err = 0
    ∧ (prepare_post false filename n c0 ⟨pre ++ 60 :: tail, 0⟩).closetag
        = (fscanf_closetag ⟨pre ++ 60 :: tail, pre.length + 1⟩ c0).closetag
    ∧ (prepare_post false filename n c0 ⟨pre ++ 60 :: tail, 0⟩).putfile
        = ⟨pre ++ 60 :: tail, pre.length⟩ := by
  have hs := scan_loop_found pre tail h3 hno
  have hk : fseek_end ⟨pre ++ 60 :: tail, pre.length + 1⟩ (-((tail.length : Int) + 1))
      = (0, ⟨pre ++ 60 :: tail, pre.length⟩) :=
    fseek_end_ok _ _ _ (by simp; omega)
  have h01 : ¬ ((0 : Int) = -1) := by decide
  simp only [prepare_post, hs, hk, h01, if_false]
  simp

theorem prepare_post_none (filename c0 D : List Byte) (n : Int)
    (hno : ∀ i, i + 3 < D.length → D[i]? ≠ some 60) :
    (prepare_post false filename n c0 ⟨D, 0⟩).err = -1
    ∧ (prepare_post false filename n c0 ⟨D, 0⟩).putfile = ⟨D, D.length⟩ := by
  obtain ⟨ch1, seek1, pos1, hs⟩ := scan_loop_none D hno
  have hk : fseek_end ⟨D, pos1⟩ 0 = (0, ⟨D, D.length⟩) :=
    fseek_end_ok _ _ _ (by simp)
  simp [prepare_post, hs, hk]

theorem fputs_append (s t : List Byte) (f : File) : fputs t (fputs s f) = fputs (s ++ t) f := by
  simp [fputs, List.foldl_append]

theorem fopen_rplus_reg (fs : FS) (filename D : List Byte)
    (hnode : fs.node filename = some (Node.reg D)) (hw : fs.writable filename = true) :
    fopen fs filename Mode.rplus = some (fs, ⟨D, 0⟩) := by
  simp [fopen, hnode, hw]

theorem fopen_w_none (fs : FS) (filename : List Byte)
    (hnode : fs.node filename = none) (hw : fs.writable filename = true) :
    fopen fs filename Mode.w = some (fs.set filename (Node.reg []), ⟨[], 0⟩) := by
  simp [fopen, hnode, hw]

/-- The effect of `do_post` on a path where nothing exists. -/
theorem do_post_new (w : World) (filename B rest c0 : List Byte)
    (hnode : w.fs.node filename = none) (hw : w.fs.writable filename = true) :
    ∀ r, r = do_post { w with input := B ++ rest } filename (B.length : Int) c0 →
      r.fs.node filename = some (Node.reg (cs "<post>\n" ++ B ++ cs "\n</post>\n"))
      ∧ r.fs.writable = w.fs.writable
      ∧ r.input = rest
      ∧ r.out = w.out ++
          [Out.respond (cs "201 Created") (some (cs "Content-length: 0")) none none none] := by
  intro r hr
  have hf := fopen_w_none w.fs filename hnode hw
  obtain ⟨ch1, hc⟩ := copy_loop_full B rest (fputs (cs "<post>\n") ⟨[], 0⟩)
  have hputs : fputs (cs "\n</" ++ c_str (cs "post") ++ cs ">\n")
      (fputs B (fputs (cs "<post>\n") ⟨[], 0⟩))
      = ⟨cs "<post>\n" ++ B ++ cs "\n</post>\n",
         (cs "<post>\n" ++ B ++ cs "\n</post>\n").length⟩ := by
    rw [fputs_append, fputs_append, fputs_at _ _ (by simp)]
    have e : cs "\n</" ++ c_str (cs "post") ++ cs ">\n" = cs "\n</post>\n" := by decide
    simp [e]
  have h01 : ¬ ((0 : Int) = -1) := by decide
  subst hr
  simp only [do_post, World.call, hnode, Option.isNone_none, if_true, hf, prepare_post, hc,
    ne_eq, h01, not_false_eq_true, hputs]
  simp [finish_write, fclose, FS.set, respond, LOG]

/-- The effect of `do_post` on an existing regular file that can be opened for
update, in terms of what `prepare_post` selects. -/
theorem do_post_existing (w : World) (filename B rest c0 D : List Byte)
    (hnode : w.fs.node filename = some (Node.reg D)) (hw : w.fs.writable filename = true) :
    ∀ r, r = do_post { w with input := B ++ rest } filename (B.length : Int) c0 →
      r.fs.node filename = some (Node.reg
        (if (prepare_post false filename (B.length : Int) c0 ⟨D, 0⟩).err ≠ -1 then
          fputs (B ++ (cs "\n</"
            ++ c_str (prepare_post false filename (B.length : Int) c0 ⟨D, 0⟩).closetag
            ++ cs ">\n")) (prepare_post false filename (B.length : Int) c0 ⟨D, 0⟩).putfile
         else
          fputs B (prepare_post false filename (B.length : Int) c0 ⟨D, 0⟩).putfile).data)
      ∧ r.fs.writable = w.fs.writable
      ∧ r.input = rest
      ∧ r.out = w.out ++ [Out.respond (cs "204 No Content") none none none none] := by
  intro r hr
  have hf := fopen_rplus_reg w.fs filename D hnode hw
  obtain ⟨ch1, hc⟩ := copy_loop_full B rest
    (prepare_post false filename (B.length : Int) c0 ⟨D, 0⟩).putfile
  subst hr
  simp only [do_post, World.call, hnode, Option.isNone_some, Bool.false_eq_true, if_false, hf, hc,
    fputs_append]
  by_cases he : (prepare_post false filename (B.length : Int) c0 ⟨D, 0⟩).err = -1
  · simp [he, finish_write, fclose, FS.set, respond, LOG]
  · simp [he, finish_write, fclose, FS.set, respond, LOG]

/-- The effect of `do_post` when the search selects a `<`: the body and the
closing tag are written over the old bytes from the `<` on, and old bytes
beyond what was written stay. -/
theorem do_post_found (w : World) (filename B rest c0 pre tail : List Byte)
    (hnode : w.fs.node filename = some (Node.reg (pre ++ 60 :: tail)))
    (hw : w.fs.writable filename = true) (h3 : 3 ≤ tail.length)
    (hno : ∀ i, i + 3 < tail.length → tail[i]? ≠ some 60) :
    ∀ r, r = do_post { w with input := B ++ rest } filename (B.length : Int) c0 →
      r.fs.node filename = some (Node.reg
        (pre ++ (B ++ (cs "\n</"
            ++ c_str (fscanf_closetag ⟨pre ++ 60 :: tail, pre.length + 1⟩ c0).closetag
              ++ cs ">\n"))
          ++ (60 :: tail).drop (B ++ (cs "\n</"
            ++ c_str (fscanf_closetag ⟨pre ++ 60 :: tail, pre.length + 1⟩ c0).closetag
            ++ cs ">\n")).length))
      ∧ r.fs.writable = w.fs.writable
      ∧ r.input = rest
      ∧ r.out = w.out ++ [Out.respond (cs "204 No Content") none none none none] := by
  intro r hr
  obtain ⟨h1, h2, hin, h4⟩ := do_post_existing w filename B rest c0 _ hnode hw r hr
  refine ⟨?_, h2, hin, h4⟩
  obtain ⟨e1, e2, e3⟩ := prepare_post_found filename c0 pre tail (B.length : Int) h3 hno
  have h01 : (0 : Int) ≠ -1 := by decide
  rw [h1, e1, e2, e3, if_pos h01, fputs_at _ _ (by simp)]
  simp only [List.take_left', Option.some.injEq, Node.reg.injEq, List.append_assoc,
    List.append_cancel_left_eq]
  rw [List.drop_append_eq_append_drop]
  simp

/-- The effect of `do_post` when the search selects nothing: the body is added
at the end and no closing tag is written. -/
theorem do_post_none (w : World) (filename B rest c0 D : List Byte)
    (hnode : w.fs.node filename = some (Node.reg D))
    (hw : w.fs.writable filename = true)
    (hno : ∀ i, i + 3 < D.length → D[i]? ≠ some 60) :
    ∀ r, r = do_post { w with input := B ++ rest } filename (B.length : Int) c0 →
      r.fs.node filename = some (Node.reg (D ++ B))
      ∧ r.fs.writable = w.fs.writable
      ∧ r.input = rest
      ∧ r.out = w.out ++ [Out.respond (cs "204 No Content") none none none none] := by
  intro r hr
  obtain ⟨h1, h2, h3, h4⟩ := do_post_existing w filename B rest c0 _ hnode hw r hr
  refine ⟨?_, h2, h3, h4⟩
  obtain ⟨e1, e2⟩ := prepare_post_none filename c0 D (B.length : Int) hno
  rw [h1, e1, e2]
  simp only [ne_eq, not_true_eq_false, if_false]
  rw [fputs_at _ _ (by simp)]
  simp

/-- What `fscanf` captures after the `<` of a closing tag `</name>`. -/
theorem fscanf_closetag_name (pre name after c0 : List Byte) (hne : name ≠ [])
    (hgt : ∀ b ∈ name, b ≠ 62) :
    fscanf_closetag ⟨pre ++ 60 :: (47 :: (name ++ 62 :: after)), pre.length + 1⟩ c0
      = ⟨name, decide (BUFSIZE ≤ name.length)⟩ := by
  have hd : List.drop (pre.length + 1) (pre ++ 60 :: (47 :: (name ++ 62 :: after)))
      = 47 :: (name ++ 62 :: after) := by
    rw [List.drop_append_eq_append_drop]
    simp
  have ht : List.takeWhile (fun b => b != 62) (name ++ 62 :: after) = name := by
    rw [List.takeWhile_append_of_pos]
    · simp
    · intro b hb; simpa using hgt b hb
  simp only [fscanf_closetag, hd, ht]
  simp [hne]

theorem c_str_id (s : List Byte) (h : ∀ b ∈ s, b ≠ 0) : c_str s = s := by
  unfold c_str
  rw [List.takeWhile_eq_self_iff]
  intro b hb
  simpa using h b hb

/-- The effect of `do_post` on a document whose selected `<` starts a closing
tag `</name>`. -/
theorem do_post_closing_tag (w : World) (filename B rest c0 pre name after : List Byte)
    (hnode : w.fs.node filename
      = some (Node.reg (pre ++ 60 :: (47 :: (name ++ 62 :: after)))))
    (hw : w.fs.writable filename = true)
    (hne : name ≠ []) (hgt : ∀ b ∈ name, b ≠ 62) (hnul : ∀ b ∈ name, b ≠ 0)
    (hno : ∀ i, i + 3 < (47 :: (name ++ 62 :: after)).length
      → (47 :: (name ++ 62 :: after))[i]? ≠ some 60) :
    ∀ r, r = do_post { w with input := B ++ rest } filename (B.length : Int) c0 →
      r.fs.node filename = some (Node.reg
        (pre ++ (B ++ (cs "\n</" ++ name ++ cs ">\n"))
          ++ (60 :: (47 :: (name ++ 62 :: after))).drop
              (B ++ (cs "\n</" ++ name ++ cs ">\n")).length))
      ∧ r.fs.writable = w.fs.writable
      ∧ r.input = rest
      ∧ r.out = w.out ++ [Out.respond (cs "204 No Content") none none none none] := by
  intro r hr
  have h3 : 3 ≤ (47 :: (name ++ 62 :: after)).length := by
    cases name with
    | nil => exact absurd rfl hne
    | cons a t => simp; omega
  have := do_post_found w filename B rest c0 pre _ hnode hw h3 hno r hr
  rwa [fscanf_closetag_name pre name after c0 hne hgt, c_str_id name hnul] at this

theorem post_name_plain (c : Byte) (hc : c = 62 ∨ c = 0) : ∀ b ∈ cs "post", b ≠ c := by
  have hp : cs "post" = [112, 111, 115, 116] := by decide
  intro b hb
  rw [hp] at hb
  simp only [List.mem_cons, List.mem_singleton, List.not_mem_nil, or_false] at hb
  rcases hc with rfl | rfl <;> rcases hb with rfl | rfl | rfl | rfl <;> decide

theorem post_tag_shape : cs "</post>\n" = 60 :: (47 :: (cs "post" ++ 62 :: [10])) := by decide

/-- One more post on a document that ends with the closing tag `</post>` and a
newline puts the body and a newline before that tag. -/
theorem do_post_on_post_tag (w : World) (filename B c0 P : List Byte)
    (hnode : w.fs.node filename = some (Node.reg (P ++ cs "</post>\n")))
    (hw : w.fs.writable filename = true) :
    ∀ r, r = do_post { w with input := B } filename (B.length : Int) c0 →
      r.fs.node filename = some (Node.reg ((P ++ (B ++ cs "\n")) ++ cs "</post>\n"))
      ∧ r.fs.writable = w.fs.writable
      ∧ r.input = []
      ∧ r.out = w.out ++ [Out.respond (cs "204 No Content") none none none none] := by
  intro r hr
  rw [post_tag_shape] at hnode
  have hr2 : r = do_post { w with input := B ++ [] } filename (B.length : Int) c0 := by
    rw [hr]; simp
  obtain ⟨h1, h2, h3, h4⟩ := do_post_closing_tag w filename B [] c0 P (cs "post") [10]
    hnode hw (by decide) (post_name_plain 62 (Or.inl rfl)) (post_name_plain 0 (Or.inr rfl))
    (by
      intro i hi
      have hi2 : i < 4 := by
        have : (47 :: (cs "post" ++ 62 :: [10])).length = 7 := by decide
        omega
      interval_cases i <;> decide) r hr2
  refine ⟨?_, h2, h3, h4⟩
  rw [h1]
  have hd : List.drop (B ++ (cs "\n</" ++ cs "post" ++ cs ">\n")).length
      (60 :: (47 :: (cs "post" ++ 62 :: [10]))) = [] := by
    apply List.drop_eq_nil_of_le
    have e1 : (60 :: (47 :: (cs "post" ++ 62 :: [10]) : List Byte)).length = 8 := by decide
    have e2 : (cs "\n</" ++ cs "post" ++ cs ">\n").length = 9 := by decide
    rw [List.length_append, e1, e2]
    omega
  have e3 : cs "\n</" ++ cs "post" ++ cs ">\n" = cs "\n" ++ cs "</post>\n" := by decide
  rw [hd, e3]
  simp

theorem post_all_existing (filename : List Byte) :
    ∀ (more : List (List Byte × List Byte)) (w : World) (P : List Byte),
      w.fs.node filename = some (Node.reg (P ++ cs "</post>\n")) →
      w.fs.writable filename = true →
      (post_all w filename more).fs.node filename
        = some (Node.reg (P ++ lines (more.map Prod.fst) ++ cs "</post>\n"))
      ∧ (post_all w filename more).out
        = w.out ++ List.replicate more.length
            (Out.respond (cs "204 No Content") none none none none) := by
  intro more
  induction more with
  | nil => intro w P hnode _; simp [post_all, lines, hnode]
  | cons x more ih =>
    intro w P hnode hw
    obtain ⟨B, c0⟩ := x
    obtain ⟨h1, h2, _, h4⟩ := do_post_on_post_tag w filename B c0 P hnode hw _ rfl
    obtain ⟨i1, i2⟩ := ih _ (P ++ (B ++ cs "\n")) h1 (by rw [h2]; exact hw)
    simp only [post_all, List.map_cons, lines, List.length_cons]
    rw [i1, i2, h4]
    refine ⟨by simp, ?_⟩
    simp [List.replicate_succ]

theorem data_name_plain (c : Byte) (hc : c = 62 ∨ c = 0) : ∀ b ∈ cs "data", b ≠ c := by
  have hp : cs "data" = [100, 97, 116, 97] := by decide
  intro b hb
  rw [hp] at hb
  simp only [List.mem_cons, List.mem_singleton, List.not_mem_nil, or_false] at hb
  rcases hc with rfl | rfl <;> rcases hb with rfl | rfl | rfl | rfl <;> decide

/-- The effect of putting the document `<data></data>` and then posting a body
to it: the body, a newline, the closing tag and a newline follow `<data>`. -/
theorem put_data_then_post (w : World) (filename B rest c0 : List Byte)
    (hopen : (fopen w.fs filename Mode.w).isSome) :
    ∀ r, r = do_post { do_put { w with input := cs "<data></data>" } filename 13
                 with input := B ++ rest } filename (B.length : Int) c0 →
      r.fs.node filename = some (Node.reg (cs "<data>" ++ B ++ cs "\n</data>\n"))
      ∧ r.input = rest
      ∧ r.out = w.out
          ++ [if (w.fs.node filename).isNone
              then Out.respond (cs "201 Created") (some (cs "Content-length: 0")) none none none
              else Out.respond (cs "204 No Content") none none none none,
              Out.respond (cs "204 No Content") none none none none] := by
  intro r hr
  have hlen : ((cs "<data></data>").length : Int) = 13 := by decide
  have hput : do_put { w with input := cs "<data></data>" } filename 13
      = do_put { w with input := cs "<data></data>" ++ [] } filename
          ((cs "<data></data>").length : Int) := by
    rw [hlen]; simp
  obtain ⟨p1, _, p3, p4⟩ := do_put_full w filename (cs "<data></data>") [] hopen
  rw [← hput] at p1 p3 p4
  have hshape : cs "<data></data>" = cs "<data>" ++ 60 :: (47 :: (cs "data" ++ 62 :: [])) := by
    decide
  rw [hshape] at p1
  obtain ⟨h1, _, h3, h4⟩ := do_post_closing_tag
    (do_put { w with input := cs "<data></data>" } filename 13) filename B rest c0
    (cs "<data>") (cs "data") [] p1 (by rw [p4]; exact fopen_w_writable _ _ hopen)
    (by decide) (data_name_plain 62 (Or.inl rfl)) (data_name_plain 0 (Or.inr rfl))
    (by
      intro i hi
      have hi2 : i < 3 := by
        have : (47 :: (cs "data" ++ 62 :: [])).length = 6 := by decide
        omega
      interval_cases i <;> decide) r hr
  refine ⟨?_, h3, ?_⟩
  · rw [h1]
    have hd : List.drop (B ++ (cs "\n</" ++ cs "data" ++ cs ">\n")).length
        (60 :: (47 :: (cs "data" ++ 62 :: []))) = [] := by
      apply List.drop_eq_nil_of_le
      have e1 : (60 :: (47 :: (cs "data" ++ 62 :: []) : List Byte)).length = 7 := by decide
      have e2 : (cs "\n</" ++ cs "data" ++ cs ">\n").length = 9 := by decide
      rw [List.length_append, e1, e2]
      omega
    have e3 : cs "\n</" ++ cs "data" ++ cs ">\n" = cs "\n</data>\n" := by decide
    rw [hd, e3]
    simp
  · rw [h4, p3]
    simp

theorem strstr_of_infix (needle : List Byte) :
    ∀ hay : List Byte, needle <:+: hay → strstr hay needle = true := by
  intro hay
  induction hay with
  | nil =>
    intro h
    have : needle = [] := List.eq_nil_of_infix_nil h
    simp [strstr, this]
  | cons x xs ih =>
    intro h
    rw [List.infix_cons_iff] at h
    unfold strstr
    rcases h with h | h
    · simp [List.isPrefixOf_iff_prefix.mpr h]
    · simp [ih h]

theorem fgets_take_fits : ∀ (k : Nat) (s : List Byte), (fgets_take k s).1.length ≤ k := by
  intro k
  induction k with
  | zero => intro s; simp [fgets_take]
  | succ k ih =>
    intro s
    cases s with
    | nil => simp [fgets_take]
    | cons b t =>
      unfold fgets_take
      split
      · simp
      · have := ih t
        simp only [List.length_cons]
        omega

/-- The line `fgets(buf, BUFSIZE, stream)` stores fits in `buf`. -/
theorem fgets_c_str_fits (input buf rest : List Byte)
    (h : fgets BUFSIZE input = some (buf, rest)) : (c_str buf).length < BUFSIZE := by
  unfold fgets at h
  split at h
  · cases h
  · injection h with h
    have hb : buf = (fgets_take (BUFSIZE - 1) input).1 := (congrArg Prod.fst h).symm
    have h1 := fgets_take_fits (BUFSIZE - 1) input
    have h2 : (c_str buf).length ≤ buf.length := (List.takeWhile_sublist _).length_le
    rw [← hb] at h1
    have h3 : BUFSIZE = 1024 := rfl
    omega

/-- What `parse_input` returns when the request line has a method and a target
whose path part is not empty: the filename, and in `params` the query or, when
the filename does not fit in its buffer, the bytes that ran over. -/
theorem parse_input_ok (buf method r1 target r2 : List Byte) (last : Byte)
    (hbuf : (c_str buf).length < BUFSIZE)
    (hm : scan_s (c_str buf) = some (method, r1))
    (ht : scan_s r1 = some (target, r2))
    (hlast : (target.takeWhile (fun b => b != 63)).getLast? = some last) :
    ∃ params, parse_input buf = Except.ok
      ⟨method,
       (if last = 47 then
          (if (target.takeWhile (fun b => b != 63)).head? ≠ some 47 then cs "." ++ cs "/"
            else cs ".") ++ target.takeWhile (fun b => b != 63) ++ cs "index.html"
        else
          (if (target.takeWhile (fun b => b != 63)).head? ≠ some 47 then cs "." ++ cs "/"
            else cs ".") ++ target.takeWhile (fun b => b != 63)),
       params⟩
      ∧ ((if last = 47 then
          (if (target.takeWhile (fun b => b != 63)).head? ≠ some 47 then cs "." ++ cs "/"
            else cs ".") ++ target.takeWhile (fun b => b != 63) ++ cs "index.html"
        else
          (if (target.takeWhile (fun b => b != 63)).head? ≠ some 47 then cs "." ++ cs "/"
            else cs ".") ++ target.takeWhile (fun b => b != 63)).length < BUFSIZE →
        params = (target.dropWhile (fun b => b != 63)).drop 1) := by
  have htake : (c_str buf).take (BUFSIZE - 1) = c_str buf :=
    List.take_of_length_le (by omega)
  refine ⟨_, by simp only [parse_input, htake, hm, ht, hlast]; rfl, ?_⟩
  intro hfit
  rw [if_neg (by omega)]

theorem infix_getLast (needle hay : List Byte) (h : needle <:+: hay) (hne : needle ≠ []) :
    ∃ last, hay.getLast? = some last := by
  cases hay with
  | nil => exact absurd (List.eq_nil_of_infix_nil h) hne
  | cons x xs => exact ⟨(x :: xs).getLast (by simp), List.getLast?_eq_getLast _ _⟩

theorem abc_no_lt : ∀ b ∈ cs "abc", b ≠ 60 := by
  intro b hb
  have hp : cs "abc" = [97, 98, 99] := by decide
  rw [hp] at hb
  simp only [List.mem_cons, List.mem_singleton, List.not_mem_nil, or_false] at hb
  rcases hb with rfl | rfl | rfl <;> decide

theorem a_name_plain (c : Byte) (hc : c = 62 ∨ c = 0) : ∀ b ∈ cs "a", b ≠ c := by
  have hp : cs "a" = [97] := by decide
  intro b hb
  rw [hp] at hb
  simp only [List.mem_singleton] at hb
  rcases hc with rfl | rfl <;> subst hb <;> decide

theorem big_doc_length : big_doc.length = 2147483648 := by
  rw [big_doc, List.length_replicate]

theorem to_int_small (n : Nat) (h : n < 2147483648) : to_int (n : Int) = (n : Int) := by
  unfold to_int
  omega

/-- The whole effect of `do_get_head`, by what `stat` finds. -/
theorem do_get_head_cases (w : World) (filename : List Byte) (is_get : Bool) :
    (do_get_head w filename is_get).fs = w.fs
    ∧ (do_get_head w filename is_get).input = w.input
    ∧ (do_get_head w filename is_get).out = w.out ++
        (match w.fs.node filename with
         | none =>
           [Out.error (cs "404 Not found") (cs "Server couldn't find this file") filename]
         | some Node.dir =>
           [Out.error (cs "403 Forbidden") (cs "No access to directory") filename]
         | some (Node.reg data) =>
           Out.respondOK (to_int (data.length : Int)) (mediatype filename)
             :: (if is_get then [Out.fwrite data] else [])) := by
  cases hn : w.fs.node filename with
  | none => simp [do_get_head, World.call, hn, error, LOG]
  | some nd =>
    cases nd with
    | dir => simp [do_get_head, World.call, hn, error, LOG]
    | reg data => cases is_get <;> simp [do_get_head, World.call, hn, respondOK, LOG]

theorem copy_body_at_eof (n : Nat) (st : Copy) (h : st.ch = EOF) :
    copy_body (n + 1) st = { st with content_length := st.content_length - 1 } := by
  simp [copy_body, h]

/-- The copy loop has ended within `st.input.length + 2` rounds: a larger
budget gives the same outcome. -/
theorem copy_body_budget : ∀ (n m : Nat) (st : Copy),
    st.input.length + 2 ≤ n → st.input.length + 2 ≤ m → copy_body n st = copy_body m st := by
  intro n
  induction n with
  | zero => intro m st h; omega
  | succ n ih =>
    intro m st hn hm
    obtain ⟨m, rfl⟩ : ∃ k, m = k + 1 := ⟨m - 1, by omega⟩
    obtain ⟨cl, ch, input, putfile, echo⟩ := st
    conv_lhs => rw [copy_body]
    conv_rhs => rw [copy_body]
    by_cases hc : cl ≠ 0 ∧ ch ≠ EOF
    · cases input with
      | nil =>
        obtain ⟨n, rfl⟩ : ∃ k, n = k + 1 := ⟨n - 1, by simp at hn; omega⟩
        obtain ⟨m, rfl⟩ : ∃ k, m = k + 1 := ⟨m - 1, by simp at hm; omega⟩
        simp only [hc, ne_eq, not_false_eq_true, and_self, if_true, fgetc]
        rw [copy_body_at_eof _ _ rfl, copy_body_at_eof _ _ rfl]
      | cons b t =>
        simp only [hc, ne_eq, not_false_eq_true, and_self, if_true, fgetc]
        exact ih m _ (by simp at hn ⊢; omega) (by simp at hm ⊢; omega)
    · simp only [hc, if_false]

theorem scan_back_at_err (n : Nat) (st : Scan) (h : st.err = -1) :
    scan_back (n + 1) st = st := by
  simp [scan_back, h]

theorem getc_data (f : File) : f.getc.2.data = f.data := by
  unfold File.getc
  split <;> rfl

/-- The search loop has ended within the rounds its seek offset allows: a
larger budget gives the same outcome. -/
theorem scan_back_budget : ∀ (n m : Nat) (st : Scan),
    ((st.putfile.data.length : Int) + st.seek).toNat + 2 ≤ n →
    ((st.putfile.data.length : Int) + st.seek).toNat + 2 ≤ m →
    scan_back n st = scan_back m st := by
  intro n
  induction n with
  | zero => intro m st h; omega
  | succ n ih =>
    intro m st hn hm
    obtain ⟨m, rfl⟩ : ∃ k, m = k + 1 := ⟨m - 1, by omega⟩
    obtain ⟨ch, err, seek, f⟩ := st
    simp only at hn hm
    conv_lhs => rw [scan_back]
    conv_rhs => rw [scan_back]
    by_cases hc : ch ≠ 60 ∧ err ≠ -1
    · by_cases hs : 0 ≤ (f.data.length : Int) + (seek - 1)
      · have hk : fseek_end f (seek - 1)
            = (0, ⟨f.data, ((f.data.length : Int) + (seek - 1)).toNat⟩) := by
          simp [fseek_end, hs]
        have h01 : ¬ ((0 : Int) = -1) := by decide
        simp only [hc, ne_eq, not_false_eq_true, and_self, if_true, hk, h01]
        apply ih
        · simp only [getc_data]; omega
        · simp only [getc_data]; omega
      · have hk : fseek_end f (seek - 1) = (-1, f) := fseek_end_fail f _ (by omega)
        obtain ⟨n, rfl⟩ : ∃ k, n = k + 1 := ⟨n - 1, by omega⟩
        obtain ⟨m, rfl⟩ : ∃ k, m = k + 1 := ⟨m - 1, by omega⟩
        simp only [hc, ne_eq, not_false_eq_true, and_self, if_true, hk, not_true_eq_false,
          if_false]
        rw [scan_back_at_err _ _ rfl, scan_back_at_err _ _ rfl]
    · simp only [hc, if_false]

theorem fgets_take_rest (k : Nat) (b : Byte) (s : List Byte) :
    (fgets_take (k + 1) (b :: s)).2.length ≤ s.length := by
  induction k generalizing b s with
  | zero =>
    unfold fgets_take
    split <;> simp [fgets_take]
  | succ k ih =>
    unfold fgets_take
    split
    · simp
    · cases s with
      | nil => simp [fgets_take]
      | cons c t =>
        have := ih c t
        simp only [List.length_cons]
        omega

theorem headers_body_at_null (n : Nat) (b : Bool) (st : Headers) (h : st.p_null = true) :
    headers_body (n + 1) b st = st := by
  simp [headers_body, h]

/-- The loop of `headers` has ended within `st.input.length + 2` rounds: a
larger budget gives the same outcome. -/
theorem headers_body_budget : ∀ (n m : Nat) (b : Bool) (st : Headers),
    st.input.length + 2 ≤ n → st.input.length + 2 ≤ m →
    headers_body n b st = headers_body m b st := by
  intro n
  induction n with
  | zero => intro m b st h; omega
  | succ n ih =>
    intro m b st hn hm
    obtain ⟨m, rfl⟩ : ∃ k, m = k + 1 := ⟨m - 1, by omega⟩
    obtain ⟨buf, p_null, cl, cookie, input, log⟩ := st
    simp only at hn hm
    conv_lhs => rw [headers_body]
    conv_rhs => rw [headers_body]
    by_cases hc : c_str buf ≠ cs "\r\n" ∧ p_null = false
    · simp only [hc, ne_eq, not_false_eq_true, and_self, if_true]
      cases input with
      | nil =>
        obtain ⟨n, rfl⟩ : ∃ k, n = k + 1 := ⟨n - 1, by simp at hn; omega⟩
        obtain ⟨m, rfl⟩ : ∃ k, m = k + 1 := ⟨m - 1, by simp at hm; omega⟩
        simp only [fgets, if_true]
        rw [headers_body_at_null, headers_body_at_null]
        all_goals (repeat' split) <;> rfl
      | cons x t =>
        have hr : (fgets_take 1023 (x :: t)).2.length ≤ t.length := fgets_take_rest 1022 x t
        simp only [fgets, BUFSIZE, List.cons_ne_nil, if_false, reduceCtorEq]
        apply ih
        all_goals (repeat' split) <;> simp at hn hm ⊢ <;> omega
    · simp only [hc, if_false]

/-- What `finish_write` leaves in the world, apart from the log. -/
theorem finish_write_effect (w : World) (filename : List Byte) (created : Bool)
    (content_length : Int) (putfile : File) :
    (finish_write w filename created content_length putfile).out = w.out ++
      [if created then
         Out.respond (cs "201 Created") (some (cs "Content-length: 0")) none none none
       else Out.respond (cs "204 No Content") none none none none]
    ∧ (finish_write w filename created content_length putfile).input = w.input
    ∧ (finish_write w filename created content_length putfile).fs
        = fclose w.fs filename putfile := by
  by_cases hc : content_length = -1 <;> cases created <;>
    simp [finish_write, hc, respond, LOG]

/-- What `do_post` answers and, when the open fails, what it leaves alone, for
every content length, every stream and every content of `closetag`. -/
theorem do_post_response (w : World) (filename c0 : List Byte) (content_length : Int) :
    (do_post w filename content_length c0).out = w.out ++
      [match fopen w.fs filename
          (if (w.fs.node filename).isNone then Mode.w else Mode.rplus) with
       | none => Out.error (cs "403 Forbidden") (cs "Couldn't write file") filename
       | some _ =>
         if (w.fs.node filename).isNone then
           Out.respond (cs "201 Created") (some (cs "Content-length: 0")) none none none
         else Out.respond (cs "204 No Content") none none none none]
    ∧ (fopen w.fs filename (if (w.fs.node filename).isNone then Mode.w else Mode.rplus) = none →
        (do_post w filename content_length c0).fs = w.fs
        ∧ (do_post w filename content_length c0).input = w.input) := by
  cases hf : fopen w.fs filename (if (w.fs.node filename).isNone then Mode.w else Mode.rplus) with
  | none => simp only [do_post, World.call, hf]; simp [error, LOG]
  | some x =>
    simp only [do_post, World.call, hf, finish_write_effect]
    simp

theorem to_uchar_eof : to_uchar EOF = 255 := by decide

/-- The copy loop on a stream that ends after the bytes `B`, with a content
length that asks for `d` more: the loop stores `B`, then the byte 255 that
`fputc` makes of `EOF`, and leaves `content_length` at `d - 2`. -/
theorem copy_body_short (B : List Byte) (d : Int) (hd : 1 ≤ d) :
    ∀ (n : Nat) (ch : Int) (f : File) (e : List Byte),
      B.length + 2 ≤ n → ch ≠ EOF →
      copy_body n ⟨(B.length : Int) + d, ch, B, f, e⟩
        = ⟨d - 2, EOF, [], fputs (B ++ [255]) f, e ++ (B ++ [255])⟩ := by
  induction B with
  | nil =>
    intro n ch f e hn hch
    obtain ⟨k, rfl⟩ : ∃ k, n = k + 2 := ⟨n - 2, by simp at hn; omega⟩
    have hne : ((([] : List Byte).length : Int) + d ≠ 0) := by simp; omega
    rw [copy_body]
    simp only [ne_eq, hne, not_false_eq_true, hch, and_self, if_true, fgetc, fputc, to_uchar_eof]
    rw [copy_body_at_eof _ _ rfl]
    simp [fputs]
    omega
  | cons b B ih =>
    intro n ch f e hn hch
    obtain ⟨k, rfl⟩ : ∃ k, n = k + 1 := ⟨n - 1, by omega⟩
    have hk : B.length + 2 ≤ k := by simp at hn; omega
    have hb : ((b.val : Nat) : Int) ≠ EOF := by simp [EOF]
    have h1 := ih k (b.val : Int) (f.put b) (e ++ [b]) hk hb
    have hne : (((b :: B).length : Int) + d ≠ 0) := by simp; omega
    have hcl : ((b :: B).length : Int) + d - 1 = (B.length : Int) + d := by simp; omega
    rw [copy_body]
    simp only [ne_eq, hne, not_false_eq_true, hch, and_self, if_true, fgetc, fputc,
      to_uchar_val, hcl]
    rw [h1]
    simp [fputs]

theorem copy_loop_short (B : List Byte) (d : Int) (hd : 1 ≤ d) (f : File) :
    copy_loop ((B.length : Int) + d) B f
      = ⟨d - 2, EOF, [], fputs (B ++ [255]) f, B ++ [255]⟩ := by
  have := copy_body_short B d hd (B.length + 2) 32 f [] (le_refl _) (by decide)
  simpa [copy_loop] using this

/-- The effect of `do_put` when the stream ends after the bytes `B` and the
content length asks for `d` more, on a target that can be opened: the document
is `B` followed by the byte 255, and the mismatch line is logged unless `d` is
1. -/
theorem do_put_short (w : World) (filename B : List Byte) (d : Int) (hd : 1 ≤ d)
    (hopen : (fopen w.fs filename Mode.w).isSome) :
    ∀ r, r = do_put { w with input := B } filename ((B.length : Int) + d) →
      r.fs.node filename = some (Node.reg (B ++ [255]))
      ∧ r.input = []
      ∧ r.out = w.out ++
          [if (w.fs.node filename).isNone
            then Out.respond (cs "201 Created") (some (cs "Content-length: 0")) none none none
            else Out.respond (cs "204 No Content") none none none none]
      ∧ r.log = w.log
          ++ [LogItem.msg ((if (w.fs.node filename).isNone then cs "=> create "
                else cs "=> overwrite ") ++ fmt_d ((B.length : Int) + d) ++ cs " " ++ filename
                ++ cs "\n\n")]
          ++ (B ++ [255]).map LogItem.putchar
          ++ (if d = 1 then [] else [LogItem.msg (cs "Content-length mismatch?\n")])
          ++ [LogItem.msg (cs "\n\n"),
              LogItem.msg (cs "=> " ++ (if (w.fs.node filename).isNone then cs "201 Created"
                else cs "204 No Content") ++ cs "\n\n")] := by
  intro r hr
  have hc := copy_loop_short B d hd ⟨[], 0⟩
  have hf := fopen_w_some w.fs filename hopen
  have hputs : fputs (B ++ [255]) ⟨[], 0⟩ = ⟨B ++ [255], (B ++ [255]).length⟩ := by
    rw [fputs_at _ ⟨[], 0⟩ (by simp)]; simp
  have hd1 : d - 2 = -1 ↔ d = 1 := by omega
  subst hr
  by_cases h1 : d = 1
  · subst h1
    by_cases hn : (w.fs.node filename).isNone <;>
      simp [do_put, World.call, hf, hc, hputs, finish_write, hn, fclose, FS.set, respond, LOG]
  · have h2 : ¬ (d - 2 = -1) := fun h => h1 (hd1.mp h)
    by_cases hn : (w.fs.node filename).isNone <;>
      simp [do_put, World.call, hf, hc, hputs, finish_write, h1, h2, hn, fclose, FS.set,
        respond, LOG]

theorem takeWhile_append_stop (q : Byte → Bool) (l1 l2 : List Byte)
    (h : ∃ x ∈ l1, q x = false) : (l1 ++ l2).takeWhile q = l1.takeWhile q := by
  induction l1 with
  | nil => obtain ⟨x, hx, _⟩ := h; cases hx
  | cons a t ih =>
    obtain ⟨x, hx, hq⟩ := h
    by_cases ha : q a = true
    · simp only [List.cons_append, List.takeWhile_cons, ha, if_true, List.cons.injEq, true_and]
      apply ih
      rcases List.mem_cons.mp hx with rfl | hx
      · rw [ha] at hq; cases hq
      · exact ⟨x, hx, hq⟩
    · simp [List.takeWhile_cons, ha]

theorem takeWhile_append_all (q : Byte → Bool) (l : List Byte) (c : Byte)
    (h : ∀ x ∈ l, q x = true) (hc : q c = false) : (l ++ [c]).takeWhile q = l := by
  induction l with
  | nil => simp [List.takeWhile_cons, hc]
  | cons a t ih =>
    have ha : q a = true := h a (List.mem_cons_self _ _)
    simp only [List.cons_append, List.takeWhile_cons, ha, if_true, List.cons.injEq, true_and]
    exact ih (fun x hx => h x (List.mem_cons_of_mem _ hx))

/-- What `rindex` returns: the byte searched and what follows its last
occurrence. -/
theorem rindex_eq (c : Byte) : ∀ s : List Byte,
    rindex s c = if c ∈ s then some (c :: (s.reverse.takeWhile (fun b => b != c)).reverse)
      else none := by
  intro s
  induction s with
  | nil => simp [rindex]
  | cons x xs ih =>
    rw [rindex, ih]
    by_cases hin : c ∈ xs
    · have hstop : ∃ y ∈ xs.reverse, (fun b => b != c) y = false :=
        ⟨c, List.mem_reverse.mpr hin, by simp⟩
      simp only [hin, if_true, List.mem_cons, or_true, List.reverse_cons]
      rw [takeWhile_append_stop _ _ _ hstop]
    · simp only [hin, if_false, List.mem_cons, or_false]
      by_cases hx : x = c
      · subst hx
        have hall : ∀ y ∈ xs.reverse, (fun b => b != x) y = true := by
          intro y hy
          have : y ≠ x := fun e => hin (e ▸ List.mem_reverse.mp hy)
          simpa using this
        simp only [if_true, List.reverse_cons]
        rw [takeWhile_append_all _ _ _ hall (by simp)]
        simp
      · have hx2 : ¬ c = x := fun e => hx e.symm
        simp [hx, hx2]

theorem slash_before_dot : ∀ r : List Byte,
    46 ∈ r → 46 ∉ r.takeWhile (fun b => b != 47) → 47 ∈ r.takeWhile (fun b => b != 46) := by
  intro r
  induction r with
  | nil => intro h; cases h
  | cons x r ih =>
    intro hin hnot
    by_cases h47 : x = 47
    · subst h47
      simp [List.takeWhile_cons]
    · by_cases h46 : x = 46
      · subst h46
        simp [List.takeWhile_cons] at hnot
      · have hp : (x != 47) = true := by simpa using h47
        have hq : (x != 46) = true := by simpa using h46
        simp only [List.takeWhile_cons, hp, if_true, List.mem_cons, not_or] at hnot
        simp only [List.takeWhile_cons, hq, if_true, List.mem_cons]
        right
        apply ih
        · rcases List.mem_cons.mp hin with e | e
          · exact absurd e.symm h46
          · exact e
        · exact hnot.2

theorem dot_in_name (r : List Byte) (h : 46 ∈ r.takeWhile (fun b => b != 47)) :
    r.takeWhile (fun b => b != 46)
      = (r.takeWhile (fun b => b != 47)).takeWhile (fun b => b != 46) := by
  conv_lhs => rw [← List.takeWhile_append_dropWhile (fun b => b != 47) r]
  exact takeWhile_append_stop _ _ _ ⟨46, h, by simp⟩

/-- The chain of comparisons in `mediatype` is the lookup of what follows the
dot in the table. -/
theorem mediatype_of_rindex (path e : List Byte) (h : rindex path 46 = some (46 :: e)) :
    mediatype path = lookup_type media_table e := by
  have e1 : cs ".html" = 46 :: cs "html" := by decide
  have e2 : cs ".css" = 46 :: cs "css" := by decide
  have e3 : cs ".xml" = 46 :: cs "xml" := by decide
  have e4 : cs ".xsl" = 46 :: cs "xsl" := by decide
  have e5 : cs ".xhtml" = 46 :: cs "xhtml" := by decide
  have e6 : cs ".js" = 46 :: cs "js" := by decide
  have e7 : cs ".gif" = 46 :: cs "gif" := by decide
  have e8 : cs ".jpg" = 46 :: cs "jpg" := by decide
  have e9 : cs ".png" = 46 :: cs "png" := by decide
  have e10 : cs ".svg" = 46 :: cs "svg" := by decide
  simp only [mediatype, h, e1, e2, e3, e4, e5, e6, e7, e8, e9, e10, List.cons.injEq, true_and,
    lookup_type, media_table]

theorem lookup_type_default_or_mem : ∀ (tbl : List (List Byte × List Byte)) (e : List Byte),
    lookup_type tbl e = cs "text/plain" ∨ (e, lookup_type tbl e) ∈ tbl := by
  intro tbl e
  induction tbl with
  | nil => left; rfl
  | cons p tbl ih =>
    obtain ⟨k, v⟩ := p
    by_cases hk : e = k
    · right; simp [lookup_type, hk]
    · rcases ih with h | h
      · left; simp [lookup_type, hk, h]
      · right; simp [lookup_type, hk, h]

theorem lookup_type_of_mem : ∀ (tbl : List (List Byte × List Byte)) (k v : List Byte),
    (tbl.map Prod.fst).Nodup → (k, v) ∈ tbl → lookup_type tbl k = v := by
  intro tbl k v
  induction tbl with
  | nil => intro _ h; cases h
  | cons p tbl ih =>
    obtain ⟨k1, v1⟩ := p
    intro hnd hmem
    simp only [List.map_cons, List.nodup_cons] at hnd
    rcases List.mem_cons.mp hmem with h | h
    · cases h; simp [lookup_type]
    · have hne : k ≠ k1 := by
        intro e
        subst e
        exact hnd.1 (List.mem_map.mpr ⟨(k, v), h, rfl⟩)
      simp [lookup_type, hne, ih hnd.2 h]

set_option maxRecDepth 100000 in
theorem media_keys_nodup : (media_table.map Prod.fst).Nodup := by decide

set_option maxRecDepth 100000 in
theorem media_values_nodup : (media_table.map Prod.snd).Nodup := by decide

set_option maxRecDepth 100000 in
theorem media_values_not_plain : ∀ p ∈ media_table, p.2 ≠ cs "text/plain" := by decide

set_option maxRecDepth 100000 in
theorem media_keys_no_slash : ∀ p ∈ media_table, 47 ∉ p.1 := by decide

/-- The code's `mediatype` agrees with the table lookup on the extension of the
final component. -/
theorem mediatype_eq_media_type_of (path : List Byte) : mediatype path = media_type_of path := by
  unfold media_type_of extension final_component
  simp only [List.mem_reverse, List.reverse_reverse]
  by_cases hN : 46 ∈ path.reverse.takeWhile (fun b => b != 47)
  · have hin : 46 ∈ path :=
      List.mem_reverse.mp ((List.takeWhile_sublist _).subset hN)
    have hr := rindex_eq 46 path
    rw [if_pos hin, dot_in_name _ hN] at hr
    simp only [hN, if_true]
    exact mediatype_of_rindex path _ hr
  · simp only [hN, if_false]
    by_cases hin : 46 ∈ path
    · have hr := rindex_eq 46 path
      rw [if_pos hin] at hr
      rw [mediatype_of_rindex path _ hr]
      have hs : 47 ∈ (path.reverse.takeWhile (fun b => b != 46)).reverse :=
        List.mem_reverse.mpr (slash_before_dot _ (List.mem_reverse.mpr hin) hN)
      rcases lookup_type_default_or_mem media_table
        (path.reverse.takeWhile (fun b => b != 46)).reverse with h | h
      · exact h
      · exact absurd hs (media_keys_no_slash _ h)
    · have hr := rindex_eq 46 path
      rw [if_neg hin] at hr
      simp [mediatype, hr]

theorem lookup_type_eq_iff (e k v : List Byte) (h : (k, v) ∈ media_table) :
    lookup_type media_table e = v ↔ e = k := by
  constructor
  · intro hl
    rcases lookup_type_default_or_mem media_table e with hd | hm
    · exact absurd (hl.symm.trans hd) (media_values_not_plain _ h)
    · rw [hl] at hm
      have := List.inj_on_of_nodup_map media_values_nodup hm h rfl
      exact congrArg Prod.fst this
  · intro he
    subst he
    exact lookup_type_of_mem media_table e v media_keys_nodup h

theorem lookup_type_plain_iff (e : List Byte) :
    lookup_type media_table e = cs "text/plain" ↔ ∀ k v, (k, v) ∈ media_table → e ≠ k := by
  constructor
  · intro hl k v h he
    subst he
    have := lookup_type_of_mem media_table e v media_keys_nodup h
    exact media_values_not_plain _ h (this.symm.trans hl)
  · intro hall
    rcases lookup_type_default_or_mem media_table e with hd | hm
    · exact hd
    · exact absurd rfl (hall _ _ hm)

/-- Among the positions that hold `<` and have at least three bytes after
them, if there is one, there is a greatest. -/
theorem greatest_anchor (D : List Byte) (h : ∃ q, q + 4 ≤ D.length ∧ D[q]? = some 60) :
    ∃ p, p + 4 ≤ D.length ∧ D[p]? = some 60
      ∧ ∀ q, p < q → q + 4 ≤ D.length → D[q]? ≠ some 60 := by
  obtain ⟨q0, hq0⟩ := h
  refine ⟨Nat.findGreatest (fun q => q + 4 ≤ D.length ∧ D[q]? = some 60) D.length, ?_, ?_, ?_⟩
  · exact (Nat.findGreatest_spec (P := fun q => q + 4 ≤ D.length ∧ D[q]? = some 60)
      (by omega : q0 ≤ D.length) hq0).1
  · exact (Nat.findGreatest_spec (P := fun q => q + 4 ≤ D.length ∧ D[q]? = some 60)
      (by omega : q0 ≤ D.length) hq0).2
  · intro q hlt hq hget
    exact Nat.findGreatest_is_greatest (P := fun q => q + 4 ≤ D.length ∧ D[q]? = some 60)
      hlt (by omega) ⟨hq, hget⟩

/-- A document split at a position that holds `<`. -/
theorem split_at_anchor (D : List Byte) (p : Nat) (h : D[p]? = some 60) :
    D = D.take p ++ 60 :: D.drop (p + 1) ∧ p < D.length := by
  have hlt : p < D.length := by
    by_contra hc
    rw [List.getElem?_eq_none (by omega)] at h
    cases h
  have hv : D[p] = 60 := by
    rw [List.getElem?_eq_getElem hlt] at h
    exact Option.some.inj h
  refine ⟨?_, hlt⟩
  conv_lhs => rw [← List.take_append_drop p D, List.drop_eq_getElem_cons hlt, hv]

/-- What `prepare_post` selects in an existing document when a position holds
`<`, has at least three bytes after it, and is the last such position. -/
theorem prepare_post_at_anchor (filename c0 D : List Byte) (n : Int) (p : Nat)
    (h4 : p + 4 ≤ D.length) (hp : D[p]? = some 60)
    (hmax : ∀ q, p < q → q + 4 ≤ D.length → D[q]? ≠ some 60) :
    (prepare_post false filename n c0 ⟨D, 0⟩).err = 0
    ∧ (prepare_post false filename n c0 ⟨D, 0⟩).closetag = (fscanf_closetag ⟨D, p + 1⟩ c0).closetag
    ∧ (prepare_post false filename n c0 ⟨D, 0⟩).putfile = ⟨D, p⟩ := by
  obtain ⟨hD, hlt⟩ := split_at_anchor D p hp
  have hlen : (D.take p).length = p := by simp; omega
  have htl : (D.drop (p + 1)).length = D.length - (p + 1) := by simp
  have h3 : 3 ≤ (D.drop (p + 1)).length := by omega
  have hno : ∀ i, i + 3 < (D.drop (p + 1)).length → (D.drop (p + 1))[i]? ≠ some 60 := by
    intro i hi
    rw [List.getElem?_drop]
    exact hmax (p + 1 + i) (by omega) (by omega)
  have := prepare_post_found filename c0 (D.take p) (D.drop (p + 1)) n h3 hno
  rw [← hD, hlen] at this
  exact this

/-- What `prepare_post` selects in an existing document, in both cases. -/
theorem prepare_post_cases (filename c0 D : List Byte) (n : Int) :
    (∃ p, p + 4 ≤ D.length ∧ D[p]? = some 60
        ∧ (∀ q, p < q → q + 4 ≤ D.length → D[q]? ≠ some 60)
        ∧ (prepare_post false filename n c0 ⟨D, 0⟩).err = 0
        ∧ (prepare_post false filename n c0 ⟨D, 0⟩).putfile = ⟨D, p⟩)
    ∨ ((∀ q, q + 4 ≤ D.length → D[q]? ≠ some 60)
        ∧ (prepare_post false filename n c0 ⟨D, 0⟩).err = -1
        ∧ (prepare_post false filename n c0 ⟨D, 0⟩).putfile = ⟨D, D.length⟩) := by
  by_cases h : ∃ q, q + 4 ≤ D.length ∧ D[q]? = some 60
  · obtain ⟨p, h4, hp, hmax⟩ := greatest_anchor D h
    obtain ⟨e1, _, e3⟩ := prepare_post_at_anchor filename c0 D n p h4 hp hmax
    exact Or.inl ⟨p, h4, hp, hmax, e1, e3⟩
  · have hno : ∀ q, q + 4 ≤ D.length → D[q]? ≠ some 60 :=
      fun q hq hget => h ⟨q, hq, hget⟩
    obtain ⟨e1, e2⟩ := prepare_post_none filename c0 D n (fun i hi => hno i (by omega))
    exact Or.inr ⟨hno, e1, e2⟩

/-- Whatever the content length and the stream, the copy loop only adds bytes
at the file position, one after the other. -/
theorem copy_body_writes : ∀ (n : Nat) (st : Copy),
    ∃ ws, (copy_body n st).putfile = fputs ws st.putfile := by
  intro n
  induction n with
  | zero => intro st; exact ⟨[], rfl⟩
  | succ n ih =>
    intro st
    rw [copy_body]
    by_cases hc : st.content_length ≠ 0 ∧ st.ch ≠ EOF
    · simp only [hc, ne_eq, not_false_eq_true, and_self, if_true]
      obtain ⟨ws, h⟩ := ih
        { content_length := st.content_length - 1, ch := (fgetc st.input).1,
          input := (fgetc st.input).2, putfile := fputc (fgetc st.input).1 st.putfile,
          echo := st.echo ++ [to_uchar (fgetc st.input).1] }
      exact ⟨to_uchar (fgetc st.input).1 :: ws, by rw [h]; rfl⟩
    · simp only [hc, if_false]
      exact ⟨[], rfl⟩

/-- The document `do_post` leaves in place of an existing regular file that can
be opened: the old one with some bytes written at the position `prepare_post`
selects, for every content length and every stream. -/
theorem do_post_existing_any (w : World) (filename c0 D : List Byte) (content_length : Int)
    (hnode : w.fs.node filename = some (Node.reg D)) (hw : w.fs.writable filename = true) :
    ∃ W, (do_post w filename content_length c0).fs.node filename
      = some (Node.reg
          (fputs W (prepare_post false filename content_length c0 ⟨D, 0⟩).putfile).data) := by
  have hf := fopen_rplus_reg w.fs filename D hnode hw
  obtain ⟨ws, hws⟩ := copy_body_writes (w.input.length + 2)
    ⟨content_length, 32, w.input, (prepare_post false filename content_length c0 ⟨D, 0⟩).putfile,
     []⟩
  by_cases he : (prepare_post false filename content_length c0 ⟨D, 0⟩).err = -1
  · refine ⟨ws, ?_⟩
    simp only [do_post, World.call, hnode, Option.isNone_some, Bool.false_eq_true, if_false, hf,
      finish_write_effect, he, ne_eq, not_true_eq_false, copy_loop, hws]
    simp [fclose, FS.set]
  · refine ⟨ws ++ (cs "\n</"
      ++ c_str (prepare_post false filename content_length c0 ⟨D, 0⟩).closetag ++ cs ">\n"), ?_⟩
    simp only [do_post, World.call, hnode, Option.isNone_some, Bool.false_eq_true, if_false, hf,
      finish_write_effect, he, ne_eq, not_false_eq_true, if_true, copy_loop, hws, fputs_append]
    simp [fclose, FS.set]

/-- Whether `do_post` on an existing regular file that can be opened has
written past `closetag`: only through the `fscanf` of `prepare_post`. -/
theorem do_post_existing_overrun (w : World) (filename c0 D : List Byte) (content_length : Int)
    (hnode : w.fs.node filename = some (Node.reg D)) (hw : w.fs.writable filename = true) :
    (do_post w filename content_length c0).overrun
      = (w.overrun || (prepare_post false filename content_length c0 ⟨D, 0⟩).overflow) := by
  have hf := fopen_rplus_reg w.fs filename D hnode hw
  simp only [do_post, World.call, hnode, Option.isNone_some, Bool.false_eq_true, if_false, hf]
  by_cases hc : (copy_loop content_length w.input
      (prepare_post false filename content_length c0 ⟨D, 0⟩).putfile).content_length = -1 <;>
    simp [finish_write, hc, respond, LOG]

theorem prepare_post_found_overflow (filename c0 pre tail : List Byte) (n : Int)
    (h3 : 3 ≤ tail.length) (hno : ∀ i, i + 3 < tail.length → tail[i]? ≠ some 60) :
    (prepare_post false filename n c0 ⟨pre ++ 60 :: tail, 0⟩).overflow
      = (fscanf_closetag ⟨pre ++ 60 :: tail, pre.length + 1⟩ c0).overflow := by
  have hs := scan_loop_found pre tail h3 hno
  have h01 : ¬ ((0 : Int) = -1) := by decide
  simp only [prepare_post, hs, h01, if_false]
  simp

/-- On a document whose selected `<` starts a closing tag `</name>` with a name
that fits in `closetag`, `do_post` writes past no buffer. -/
theorem do_post_closing_tag_fits (w : World) (filename c0 pre name after : List Byte)
    (content_length : Int)
    (hnode : w.fs.node filename
      = some (Node.reg (pre ++ 60 :: (47 :: (name ++ 62 :: after)))))
    (hw : w.fs.writable filename = true)
    (hne : name ≠ []) (hgt : ∀ b ∈ name, b ≠ 62) (hlen : name.length < BUFSIZE)
    (hno : ∀ i, i + 3 < (47 :: (name ++ 62 :: after)).length
      → (47 :: (name ++ 62 :: after))[i]? ≠ some 60) :
    (do_post w filename content_length c0).overrun = w.overrun := by
  have h3 : 3 ≤ (47 :: (name ++ 62 :: after)).length := by
    cases name with
    | nil => exact absurd rfl hne
    | cons a t => simp; omega
  rw [do_post_existing_overrun w filename c0 _ content_length hnode hw,
    prepare_post_found_overflow filename c0 pre _ content_length h3 hno,
    fscanf_closetag_name pre name after c0 hne hgt]
  simp
  omega

/-- On a document whose selected `<` starts a closing tag `</name>` with a name
of `BUFSIZE` bytes or more, `do_post` writes past the end of `closetag`. -/
theorem do_post_closing_tag_overruns (w : World) (filename c0 pre name after : List Byte)
    (content_length : Int)
    (hnode : w.fs.node filename
      = some (Node.reg (pre ++ 60 :: (47 :: (name ++ 62 :: after)))))
    (hw : w.fs.writable filename = true)
    (hne : name ≠ []) (hgt : ∀ b ∈ name, b ≠ 62) (hlen : BUFSIZE ≤ name.length)
    (hno : ∀ i, i + 3 < (47 :: (name ++ 62 :: after)).length
      → (47 :: (name ++ 62 :: after))[i]? ≠ some 60) :
    (do_post w filename content_length c0).overrun = true := by
  have h3 : 3 ≤ (47 :: (name ++ 62 :: after)).length := by
    cases name with
    | nil => exact absurd rfl hne
    | cons a t => simp; omega
  rw [do_post_existing_overrun w filename c0 _ content_length hnode hw,
    prepare_post_found_overflow filename c0 pre _ content_length h3 hno,
    fscanf_closetag_name pre name after c0 hne hgt]
  simp [hlen]

/-! ## Claims -/

/-- C1 (round trip). When the target can be opened for writing, whatever was
there before, `do_put` with content length `len(B)` on a stream that supplies
`B` stores exactly `B` and consumes exactly `B`, and a following `do_get_head`
with `is_get` reports `Content-length = len(B)`, the media type of the path,
and sends back exactly the bytes `B`. The length fits
an `int` because it is passed as the `int` argument `content_length`. -/
theorem put_then_get_round_trip (w : World) (filename B rest : List Byte)
    (hopen : (fopen w.fs filename Mode.w).isSome) (hlen : B.length < 2147483648) :
    (do_put { w with input := B ++ rest } filename (B.length : Int)).fs.node filename
      = some (Node.reg B)
    ∧ (do_put { w with input := B ++ rest } filename (B.length : Int)).input = rest
    ∧ (do_get_head (do_put { w with input := B ++ rest } filename (B.length : Int))
        filename true).out
      = (do_put { w with input := B ++ rest } filename (B.length : Int)).out
        ++ [Out.respondOK (B.length : Int) (mediatype filename), Out.fwrite B] := by
  obtain ⟨hnode, hin, _, _⟩ := do_put_full w filename B rest hopen
  refine ⟨hnode, hin, ?_⟩
  have hto : to_int (B.length : Int) = (B.length : Int) := by
    unfold to_int; omega
  simp [do_get_head, World.call, hnode, respondOK, LOG, hto]

/-- C1 at a concrete input: the body "hello" put to "./doc" in an empty
directory. -/
theorem put_then_get_round_trip_witness :
    (fopen (start []).fs (cs "./doc") Mode.w).isSome
    ∧ (cs "hello").length < 2147483648
    ∧ (do_put { start [] with input := cs "hello" ++ [] } (cs "./doc")
        ((cs "hello").length : Int)).fs.node (cs "./doc") = some (Node.reg (cs "hello"))
    ∧ (do_put { start [] with input := cs "hello" ++ [] } (cs "./doc")
        ((cs "hello").length : Int)).input = []
    ∧ (do_get_head (do_put { start [] with input := cs "hello" ++ [] } (cs "./doc")
        ((cs "hello").length : Int)) (cs "./doc") true).out
      = (do_put { start [] with input := cs "hello" ++ [] } (cs "./doc")
          ((cs "hello").length : Int)).out
        ++ [Out.respondOK ((cs "hello").length : Int) (mediatype (cs "./doc")),
            Out.fwrite (cs "hello")] :=
  ⟨by decide, by decide,
   put_then_get_round_trip (start []) (cs "./doc") (cs "hello") [] (by decide) (by decide)⟩

/-- C2 (create-wrap). On a path where nothing exists and that can be opened,
`do_post` with content length `len(B)` on a stream that supplies `B` creates the
document `"<post>\n" ++ B ++ "\n</post>\n"`, consumes exactly `B`, and answers
`201 Created`. -/
theorem post_creates_wrapped (w : World) (filename B rest c0 : List Byte)
    (hnode : w.fs.node filename = none) (hw : w.fs.writable filename = true) :
    (do_post { w with input := B ++ rest } filename (B.length : Int) c0).fs.node filename
      = some (Node.reg (cs "<post>\n" ++ B ++ cs "\n</post>\n"))
    ∧ (do_post { w with input := B ++ rest } filename (B.length : Int) c0).input = rest
    ∧ (do_post { w with input := B ++ rest } filename (B.length : Int) c0).out
      = w.out ++ [Out.respond (cs "201 Created") (some (cs "Content-length: 0"))
          none none none] := by
  obtain ⟨h1, _, h3, h4⟩ := do_post_new w filename B rest c0 hnode hw _ rfl
  exact ⟨h1, h3, h4⟩

/-- C2 at the body "hello": the document created is "<post>\nhello\n</post>\n". -/
theorem post_creates_wrapped_witness :
    (start []).fs.node (cs "./doc") = none
    ∧ (start []).fs.writable (cs "./doc") = true
    ∧ (do_post { start [] with input := cs "hello" ++ [] } (cs "./doc")
        ((cs "hello").length : Int) []).fs.node (cs "./doc")
      = some (Node.reg (cs "<post>\nhello\n</post>\n")) :=
  ⟨by decide, by decide,
   (post_creates_wrapped (start []) (cs "./doc") (cs "hello") [] [] (by decide) (by decide)).1⟩

/-- C3 (accumulating appends). A first `do_post` on a path where nothing exists
and that can be opened, followed by any number of further posts, each with its
body fully supplied, leaves the document
`"<post>\n" ++ B1 ++ "\n" ++ ... ++ Bk ++ "\n" ++ "</post>\n"`; the first call
answers `201 Created` and every later one `204 No Content`. -/
theorem posts_accumulate (w : World) (filename : List Byte)
    (first : List Byte × List Byte) (more : List (List Byte × List Byte))
    (hnode : w.fs.node filename = none) (hw : w.fs.writable filename = true) :
    (post_all w filename (first :: more)).fs.node filename
      = some (Node.reg
          (cs "<post>\n" ++ lines ((first :: more).map Prod.fst) ++ cs "</post>\n"))
    ∧ (post_all w filename (first :: more)).out
      = w.out
        ++ Out.respond (cs "201 Created") (some (cs "Content-length: 0")) none none none
          :: List.replicate more.length
              (Out.respond (cs "204 No Content") none none none none) := by
  obtain ⟨B, c0⟩ := first
  have hB : B = B ++ [] := by simp
  have hr : do_post { w with input := B } filename (B.length : Int) c0
      = do_post { w with input := B ++ [] } filename (B.length : Int) c0 := by simp
  obtain ⟨h1, h2, _, h4⟩ := do_post_new w filename B [] c0 hnode hw _ hr
  have e : cs "<post>\n" ++ B ++ cs "\n</post>\n"
      = (cs "<post>\n" ++ (B ++ cs "\n")) ++ cs "</post>\n" := by
    have : cs "\n</post>\n" = cs "\n" ++ cs "</post>\n" := by decide
    rw [this]; simp
  rw [e] at h1
  obtain ⟨i1, i2⟩ := post_all_existing filename more _ _ h1 (by rw [h2]; exact hw)
  simp only [post_all, List.map_cons, lines]
  rw [i1, i2, h4]
  simp

/-- C3 at the bodies "hello" then "world": the document is
"<post>\nhello\nworld\n</post>\n". -/
theorem posts_accumulate_witness :
    (start []).fs.node (cs "./doc") = none
    ∧ (start []).fs.writable (cs "./doc") = true
    ∧ (post_all (start []) (cs "./doc") [(cs "hello", []), (cs "world", [])]).fs.node
        (cs "./doc")
      = some (Node.reg (cs "<post>\nhello\nworld\n</post>\n"))
    ∧ (post_all (start []) (cs "./doc") [(cs "hello", []), (cs "world", [])]).out
      = [Out.respond (cs "201 Created") (some (cs "Content-length: 0")) none none none,
         Out.respond (cs "204 No Content") none none none none] :=
  ⟨by decide, by decide,
   (posts_accumulate (start []) (cs "./doc") (cs "hello", []) [(cs "world", [])]
      (by decide) (by decide)).1,
   (posts_accumulate (start []) (cs "./doc") (cs "hello", []) [(cs "world", [])]
      (by decide) (by decide)).2⟩

/-- C4, as stated, fails at the body "x": after `do_put` of `<data></data>` and
`do_post` of "x" the document is "<data>x\n</data>\n", not "<data>x</data>\n". -/
theorem put_data_post_x_refuted :
    (do_post { do_put { start [] with input := cs "<data></data>" } (cs "./doc") 13
                 with input := cs "x" ++ [] } (cs "./doc") ((cs "x").length : Int) []).fs.node
        (cs "./doc")
      = some (Node.reg (cs "<data>x\n</data>\n"))
    ∧ (do_post { do_put { start [] with input := cs "<data></data>" } (cs "./doc") 13
                 with input := cs "x" ++ [] } (cs "./doc") ((cs "x").length : Int) []).fs.node
        (cs "./doc")
      ≠ some (Node.reg (cs "<data>" ++ cs "x" ++ cs "</data>\n")) := by
  have h := (put_data_then_post (start []) (cs "./doc") (cs "x") [] [] (by decide) _ rfl).1
  refine ⟨h, ?_⟩
  rw [h]
  decide

/-- C4 (amended). After `do_put` of the 13 bytes `<data></data>` on a path that
can be opened for writing, `do_post` of a fully supplied body `B` leaves the
document `"<data>" ++ B ++ "\n</data>\n"` and answers `204 No Content`: the
opening tag is kept, and the closing tag is written again on a line of its
own. -/
theorem put_data_post_keeps_tag (w : World) (filename B rest c0 : List Byte)
    (hopen : (fopen w.fs filename Mode.w).isSome) :
    (do_post { do_put { w with input := cs "<data></data>" } filename 13
                 with input := B ++ rest } filename (B.length : Int) c0).fs.node filename
      = some (Node.reg (cs "<data>" ++ B ++ cs "\n</data>\n"))
    ∧ (do_post { do_put { w with input := cs "<data></data>" } filename 13
                 with input := B ++ rest } filename (B.length : Int) c0).out
      = w.out
          ++ [if (w.fs.node filename).isNone
              then Out.respond (cs "201 Created") (some (cs "Content-length: 0")) none none none
              else Out.respond (cs "204 No Content") none none none none,
              Out.respond (cs "204 No Content") none none none none] := by
  obtain ⟨h1, _, h3⟩ := put_data_then_post w filename B rest c0 hopen _ rfl
  exact ⟨h1, h3⟩

/-- C4 (amended) at the body "x" on "./doc" in an empty directory. -/
theorem put_data_post_keeps_tag_witness :
    (fopen (start []).fs (cs "./doc") Mode.w).isSome
    ∧ (do_post { do_put { start [] with input := cs "<data></data>" } (cs "./doc") 13
                 with input := cs "x" ++ [] } (cs "./doc") ((cs "x").length : Int) []).fs.node
        (cs "./doc")
      = some (Node.reg (cs "<data>" ++ cs "x" ++ cs "\n</data>\n")) :=
  ⟨by decide,
   (put_data_post_keeps_tag (start []) (cs "./doc") (cs "x") [] [] (by decide)).1⟩

/-- C5 (path safety). Whatever the method field, when the path part of the
target (the target up to its first `?`) contains `/../`, one round of `main`
answers `400 Bad Request` and does nothing else: no header line is read, no
file-system call is made and the file system is unchanged. -/
theorem traversal_rejected (w : World) (c0 buf rest method r1 target r2 : List Byte)
    (hline : fgets BUFSIZE w.input = some (buf, rest))
    (hm : scan_s (c_str buf) = some (method, r1))
    (ht : scan_s r1 = some (target, r2))
    (htrav : cs "/../" <:+: target.takeWhile (fun b => b != 63)) :
    ∃ w1 filename, main_connection w c0 = Except.ok w1
      ∧ w1.out = w.out
          ++ [Out.error (cs "400 Bad Request") (cs "URI contains '/../'") filename]
      ∧ w1.sys = w.sys
      ∧ w1.fs = w.fs
      ∧ w1.input = rest := by
  obtain ⟨last, hlast⟩ := infix_getLast _ _ htrav (by decide)
  have hbuf : (c_str buf).length < BUFSIZE := fgets_c_str_fits _ _ _ hline
  obtain ⟨params0, hp, _⟩ := parse_input_ok buf method r1 target r2 last hbuf hm ht hlast
  have hin : ∀ a b : List Byte,
      strstr (a ++ target.takeWhile (fun b => b != 63) ++ b) (cs "/../") = true := by
    intro a b
    apply strstr_of_infix
    exact List.IsInfix.trans htrav ⟨a, b, rfl⟩
  have hs : ∀ rq, parse_input buf = Except.ok rq → strstr rq.filename (cs "/../") = true := by
    intro rq hrq
    rw [hp] at hrq
    injection hrq with hrq
    subst hrq
    by_cases h47 : last = 47
    · simp only [h47, if_true]
      exact hin _ _
    · simp only [h47, if_false]
      have := hin (if (target.takeWhile (fun b => b != 63)).head? ≠ some 47
        then cs "." ++ cs "/" else cs ".") []
      simpa using this
  cases hq : parse_input buf with
  | error e => rw [hp] at hq; cases hq
  | ok rq =>
    refine ⟨error
      { LOG { LOG w (cs "WAITING\n") with input := rest } (c_str buf) with
        overrun := w.overrun || decide (BUFSIZE ≤ rq.filename.length) }
      (cs "400 Bad Request") (cs "URI contains '/../'") rq.filename, rq.filename, ?_, ?_⟩
    · simp only [main_connection, LOG, hline, hq, hs rq hq, if_true]
    · simp [error, LOG]

/-- C5 at the request line "GET /a/../b HTTP/1.1". -/
theorem traversal_rejected_witness :
    ∃ w1 filename,
      main_connection (start (cs "GET /a/../b HTTP/1.1\r\n\r\n")) [] = Except.ok w1
      ∧ w1.out = (start (cs "GET /a/../b HTTP/1.1\r\n\r\n")).out
          ++ [Out.error (cs "400 Bad Request") (cs "URI contains '/../'") filename]
      ∧ w1.sys = (start (cs "GET /a/../b HTTP/1.1\r\n\r\n")).sys
      ∧ w1.fs = (start (cs "GET /a/../b HTTP/1.1\r\n\r\n")).fs
      ∧ w1.input = cs "\r\n" :=
  traversal_rejected (start (cs "GET /a/../b HTTP/1.1\r\n\r\n")) []
    (cs "GET /a/../b HTTP/1.1\r\n") (cs "\r\n") (cs "GET") (cs " /a/../b HTTP/1.1\r\n")
    (cs "/a/../b") (cs " HTTP/1.1\r\n")
    (by decide) (by decide) (by decide) ⟨cs "/a", cs "b", by decide⟩

/-- C6 at the request line "GET /.. HTTP/1.1": `parse_input` builds the
filename "./..", which does not contain "/../" and rises above the root; the
round of `main` does not answer 400 but goes on to `do_get_head`, which calls
`stat` on "./..". -/
theorem dotdot_target_escapes :
    parse_input (cs "GET /.. HTTP/1.1\r\n") = Except.ok ⟨cs "GET", cs "./..", []⟩
    ∧ strstr (cs "./..") (cs "/../") = false
    ∧ stays_inside (cs "./..") = false
    ∧ sys_of (main_connection (start (cs "GET /.. HTTP/1.1\r\n\r\n")) [])
        = [Sys.stat (cs "./..")]
    ∧ out_of (main_connection (start (cs "GET /.. HTTP/1.1\r\n\r\n")) [])
        = [Out.error (cs "404 Not found") (cs "Server couldn't find this file")
            (cs "./..")] := by
  refine ⟨by rfl, by decide, by decide, by decide, by decide⟩

/-- C7 (no-tag fallback). On an existing regular file `D` that can be opened
and that holds no `<` byte or is shorter than 4 bytes (the empty document is
both), `do_post` with a fully supplied body `B` leaves the document `D ++ B`,
with no newline and no closing tag added, and answers `204 No Content`. -/
theorem post_without_tag_appends (w : World) (filename B rest c0 D : List Byte)
    (hnode : w.fs.node filename = some (Node.reg D))
    (hw : w.fs.writable filename = true)
    (hno : (∀ b ∈ D, b ≠ 60) ∨ D.length < 4) :
    (do_post { w with input := B ++ rest } filename (B.length : Int) c0).fs.node filename
      = some (Node.reg (D ++ B))
    ∧ (do_post { w with input := B ++ rest } filename (B.length : Int) c0).input = rest
    ∧ (do_post { w with input := B ++ rest } filename (B.length : Int) c0).out
      = w.out ++ [Out.respond (cs "204 No Content") none none none none] := by
  have hno2 : ∀ i, i + 3 < D.length → D[i]? ≠ some 60 := by
    intro i hlt hi
    rcases hno with h | h
    · exact h 60 (List.getElem?_mem hi) rfl
    · omega
  obtain ⟨h1, _, h3, h4⟩ := do_post_none w filename B rest c0 D hnode hw hno2 _ rfl
  exact ⟨h1, h3, h4⟩

/-- C7 at the document "abc" and the body "ZZ": the document becomes "abcZZ". -/
theorem post_without_tag_appends_witness :
    (doc_world (cs "abc") []).fs.node (cs "./doc") = some (Node.reg (cs "abc"))
    ∧ (doc_world (cs "abc") []).fs.writable (cs "./doc") = true
    ∧ ((∀ b ∈ cs "abc", b ≠ 60) ∨ (cs "abc").length < 4)
    ∧ (do_post { doc_world (cs "abc") [] with input := cs "ZZ" ++ [] } (cs "./doc")
        ((cs "ZZ").length : Int) []).fs.node (cs "./doc")
      = some (Node.reg (cs "abcZZ")) :=
  ⟨by decide, by decide, Or.inl abc_no_lt,
   (post_without_tag_appends (doc_world (cs "abc") []) (cs "./doc") (cs "ZZ") [] [] (cs "abc")
      (by decide) (by decide) (Or.inl abc_no_lt)).1⟩

/-- C8 at the document "<a></a><hr>\n" and the body "Z" (with an empty
`closetag` buffer): the last closing tag, "</a>", starts at byte 3, but the
body is written at byte 7, over the later tag "<hr>", and "</a>" is kept in
front of it. -/
theorem post_lands_on_later_tag :
    (do_post (doc_world (cs "<a></a><hr>\n") (cs "Z")) (cs "./doc") 1 []).fs.node (cs "./doc")
      = some (Node.reg (cs "<a></a>Z\n</>\n")) := by
  have h := (do_post_found (doc_world (cs "<a></a><hr>\n") []) (cs "./doc") (cs "Z") [] []
    (cs "<a></a>") (cs "hr>\n") (by decide) (by decide) (by decide)
    (by
      intro i hi
      have hi2 : i < 1 := by
        have : (cs "hr>\n").length = 4 := by decide
        omega
      interval_cases i; decide) _ rfl).1
  have hc : fscanf_closetag ⟨cs "<a></a>" ++ 60 :: cs "hr>\n", (cs "<a></a>").length + 1⟩ []
      = ⟨[], false⟩ := by decide
  rw [hc] at h
  exact h.trans (by decide)

/-- C9, as stated, fails at the document "<a></a>\n\n\n\n" and the body "Z":
the search selects the `<` of "</a>" at byte 3, and the document afterwards is
"<a>Z\n</a>\n\n", which keeps the last byte of the old trailing content; it is
not "<a>" ++ "Z" ++ "\n</a>\n". -/
theorem post_keeps_long_trailer :
    (do_post (doc_world (cs "<a></a>\n\n\n\n") (cs "Z")) (cs "./doc") 1 []).fs.node (cs "./doc")
      = some (Node.reg (cs "<a>Z\n</a>\n\n"))
    ∧ (do_post (doc_world (cs "<a></a>\n\n\n\n") (cs "Z")) (cs "./doc") 1 []).fs.node
        (cs "./doc")
      ≠ some (Node.reg (cs "<a>" ++ cs "Z" ++ cs "\n</a>\n")) := by
  have h := (do_post_closing_tag (doc_world (cs "<a></a>\n\n\n\n") []) (cs "./doc") (cs "Z") []
    [] (cs "<a>") (cs "a") (cs "\n\n\n\n") (by decide) (by decide) (by decide)
    (a_name_plain 62 (Or.inl rfl)) (a_name_plain 0 (Or.inr rfl))
    (by
      intro i hi
      have hi2 : i < 4 := by
        have : (47 :: (cs "a" ++ 62 :: cs "\n\n\n\n")).length = 7 := by decide
        omega
      interval_cases i <;> decide) _ rfl).1
  have h2 : (do_post (doc_world (cs "<a></a>\n\n\n\n") (cs "Z")) (cs "./doc") 1 []).fs.node
      (cs "./doc") = some (Node.reg (cs "<a>Z\n</a>\n\n")) := h.trans (by decide)
  refine ⟨h2, ?_⟩
  rw [h2]
  decide

/-- C9 (amended). Let the existing document be
`pre ++ "<" ++ "/" ++ name ++ ">" ++ after`, where `name` is not empty, holds
neither `>` nor NUL and, at fewer than `BUFSIZE` bytes, fits with its NUL in
`char closetag[BUFSIZE]`, and where no `<` lies between that `<` and the last
three bytes, so that the search selects it, at position `p = len(pre)`. Then
`do_post` writes past no buffer, and with a fully supplied body `B` it writes
`W = B ++ "\n</name>\n"` at `p`: the document afterwards is
`pre ++ W` followed by the bytes of the old document from position
`p + len(W)` on. The old closing tag is always overwritten; the old trailing
content is gone exactly when it is at most `len(B) + 2` bytes long, and then
the document is `pre ++ B ++ "\n</name>\n"`. -/
theorem post_overwrites_from_anchor (w : World) (filename B rest c0 pre name after : List Byte)
    (hnode : w.fs.node filename
      = some (Node.reg (pre ++ 60 :: (47 :: (name ++ 62 :: after)))))
    (hw : w.fs.writable filename = true)
    (hne : name ≠ []) (hgt : ∀ b ∈ name, b ≠ 62) (hnul : ∀ b ∈ name, b ≠ 0)
    (hlen : name.length < BUFSIZE)
    (hno : ∀ i, i + 3 < (47 :: (name ++ 62 :: after)).length
      → (47 :: (name ++ 62 :: after))[i]? ≠ some 60) :
    (do_post { w with input := B ++ rest } filename (B.length : Int) c0).overrun = w.overrun
    ∧ (do_post { w with input := B ++ rest } filename (B.length : Int) c0).fs.node filename
      = some (Node.reg
          (pre ++ (B ++ (cs "\n</" ++ name ++ cs ">\n"))
            ++ (pre ++ 60 :: (47 :: (name ++ 62 :: after))).drop
                (pre.length + (B ++ (cs "\n</" ++ name ++ cs ">\n")).length)))
    ∧ (after.length ≤ B.length + 2 →
        (do_post { w with input := B ++ rest } filename (B.length : Int) c0).fs.node filename
          = some (Node.reg (pre ++ B ++ (cs "\n</" ++ name ++ cs ">\n"))))
    ∧ (do_post { w with input := B ++ rest } filename (B.length : Int) c0).out
      = w.out ++ [Out.respond (cs "204 No Content") none none none none] := by
  obtain ⟨h1, _, _, h4⟩ :=
    do_post_closing_tag w filename B rest c0 pre name after hnode hw hne hgt hnul hno _ rfl
  refine ⟨do_post_closing_tag_fits { w with input := B ++ rest } filename c0 pre name after
    (B.length : Int) hnode hw hne hgt hlen hno, ?_, ?_, h4⟩
  · rw [h1, List.drop_append]
  · intro hlen
    rw [h1]
    have hd : List.drop (B ++ (cs "\n</" ++ name ++ cs ">\n")).length
        (60 :: (47 :: (name ++ 62 :: after))) = [] := by
      apply List.drop_eq_nil_of_le
      have e1 : (cs "\n</").length = 3 := by decide
      have e2 : (cs ">\n").length = 2 := by decide
      simp only [List.length_append, List.length_cons, e1, e2]
      omega
    rw [hd]
    simp

/-- C9 (amended) at the document "<a></a>\n" and the body "Z": the trailing
newline is overwritten and the document becomes "<a>Z\n</a>\n". -/
theorem post_overwrites_from_anchor_witness :
    (doc_world (cs "<a></a>\n") []).fs.node (cs "./doc")
      = some (Node.reg (cs "<a>" ++ 60 :: (47 :: (cs "a" ++ 62 :: cs "\n"))))
    ∧ (doc_world (cs "<a></a>\n") []).fs.writable (cs "./doc") = true
    ∧ (cs "a").length < BUFSIZE
    ∧ (cs "\n").length ≤ (cs "Z").length + 2
    ∧ (do_post { doc_world (cs "<a></a>\n") [] with input := cs "Z" ++ [] } (cs "./doc")
        ((cs "Z").length : Int) []).fs.node (cs "./doc")
      = some (Node.reg (cs "<a>Z\n</a>\n")) :=
  ⟨by decide, by decide, by decide, by decide,
   (post_overwrites_from_anchor (doc_world (cs "<a></a>\n") []) (cs "./doc") (cs "Z") [] []
      (cs "<a>") (cs "a") (cs "\n") (by decide) (by decide) (by decide)
      (a_name_plain 62 (Or.inl rfl)) (a_name_plain 0 (Or.inr rfl)) (by decide)
      (by
        intro i hi
        have hi2 : i < 1 := by
          have : (47 :: (cs "a" ++ 62 :: cs "\n")).length = 4 := by decide
          omega
        interval_cases i; decide)).2.2.1 (by decide)⟩

/-- C10, as stated, fails at a regular file of 2147483648 bytes: `do_get_head`
reports `Content-length: -2147483648`, not the byte length of the document. -/
theorem get_reports_wrapped_length :
    (doc_world big_doc []).fs.node (cs "./doc") = some (Node.reg big_doc)
    ∧ (big_doc.length : Int) = 2147483648
    ∧ (do_get_head (doc_world big_doc []) (cs "./doc") true).out
      = [Out.respondOK (-2147483648) (cs "text/plain"), Out.fwrite big_doc]
    ∧ (do_get_head (doc_world big_doc []) (cs "./doc") true).out
      ≠ [Out.respondOK (big_doc.length : Int) (mediatype (cs "./doc")), Out.fwrite big_doc] := by
  have hn : (doc_world big_doc []).fs.node (cs "./doc") = some (Node.reg big_doc) := by
    simp [doc_world, FS.set, start, empty_fs]
  have hl : (big_doc.length : Int) = 2147483648 := by
    rw [big_doc_length]; rfl
  have hm : mediatype (cs "./doc") = cs "text/plain" := by decide
  have ht : to_int 2147483648 = -2147483648 := by decide
  have ho : (do_get_head (doc_world big_doc []) (cs "./doc") true).out
      = [Out.respondOK (-2147483648) (cs "text/plain"), Out.fwrite big_doc] := by
    rw [(do_get_head_cases _ _ _).2.2, hn]
    simp only [hl, hm, ht, if_true]
    rfl
  refine ⟨hn, hl, ho, ?_⟩
  rw [ho, hl]
  intro h
  injection h with h1 _
  injection h1 with h2 _
  exact absurd h2 (by decide)

/-- C10 (amended). `do_get_head` answers `404` exactly when nothing exists at
the path, `403` exactly when something other than a regular file exists there,
and otherwise `200` with the media type `mediatype(path)` and with
`Content-length` equal to the byte length of the document converted to a 32-bit
`int`, which is the byte length itself whenever that is below 2147483648. With
`is_get` the whole content follows; without it nothing follows. The file system
and the unread input are left as they were. -/
theorem get_head_classification (w : World) (filename : List Byte) (is_get : Bool) :
    (do_get_head w filename is_get).fs = w.fs
    ∧ (do_get_head w filename is_get).input = w.input
    ∧ (do_get_head w filename is_get).out = w.out ++
        (match w.fs.node filename with
         | none =>
           [Out.error (cs "404 Not found") (cs "Server couldn't find this file") filename]
         | some Node.dir =>
           [Out.error (cs "403 Forbidden") (cs "No access to directory") filename]
         | some (Node.reg data) =>
           Out.respondOK
               (if data.length < 2147483648 then (data.length : Int)
                else to_int (data.length : Int))
               (mediatype filename)
             :: (if is_get then [Out.fwrite data] else []))
    ∧ ((do_get_head w filename is_get).out = w.out ++
          [Out.error (cs "404 Not found") (cs "Server couldn't find this file") filename]
        ↔ w.fs.node filename = none)
    ∧ ((do_get_head w filename is_get).out = w.out ++
          [Out.error (cs "403 Forbidden") (cs "No access to directory") filename]
        ↔ w.fs.node filename = some Node.dir) := by
  obtain ⟨h1, h2, h3⟩ := do_get_head_cases w filename is_get
  have hconv : ∀ data : List Byte,
      (if data.length < 2147483648 then (data.length : Int) else to_int (data.length : Int))
        = to_int (data.length : Int) := by
    intro data
    split
    · rename_i h; exact (to_int_small _ h).symm
    · rfl
  have hne : cs "404 Not found" ≠ cs "403 Forbidden" := by decide
  refine ⟨h1, h2, ?_, ?_, ?_⟩
  · rw [h3]
    cases hn : w.fs.node filename with
    | none => rfl
    | some nd =>
      cases nd with
      | dir => rfl
      | reg data => simp only [hconv]
  · rw [h3]
    cases hn : w.fs.node filename with
    | none => simp
    | some nd =>
      cases nd with
      | dir => simpa using fun h => absurd h.symm hne
      | reg data => cases is_get <;> simp
  · rw [h3]
    cases hn : w.fs.node filename with
    | none => simpa using fun h => absurd h hne
    | some nd =>
      cases nd with
      | dir => simp
      | reg data => cases is_get <;> simp

/-- C12 at content length 4 on a stream that ends after "abc" (a shortfall of
one byte): `do_put` answers 201 and logs no "Content-length mismatch?" line,
and neither does `do_post`, on a new file or on an existing one. With content
length 5 on the same stream (a shortfall of two) the line is logged. -/
theorem short_by_one_logs_no_mismatch :
    (do_put (start (cs "abc")) (cs "./doc") 4).out
      = [Out.respond (cs "201 Created") (some (cs "Content-length: 0")) none none none]
    ∧ (do_put (start (cs "abc")) (cs "./doc") 4).log
      = [LogItem.msg (cs "=> create 4 ./doc\n\n"), LogItem.putchar 97, LogItem.putchar 98,
         LogItem.putchar 99, LogItem.putchar 255, LogItem.msg (cs "\n\n"),
         LogItem.msg (cs "=> 201 Created\n\n")]
    ∧ LogItem.msg (cs "Content-length mismatch?\n")
        ∉ (do_put (start (cs "abc")) (cs "./doc") 4).log
    ∧ LogItem.msg (cs "Content-length mismatch?\n")
        ∉ (do_post (start (cs "abc")) (cs "./doc") 4 []).log
    ∧ LogItem.msg (cs "Content-length mismatch?\n")
        ∉ (do_post (doc_world (cs "<a></a>") (cs "abc")) (cs "./doc") 4 []).log
    ∧ LogItem.msg (cs "Content-length mismatch?\n")
        ∈ (do_put (start (cs "abc")) (cs "./doc") 5).log := by
  refine ⟨by decide, by decide, by decide, by decide, by decide, by decide⟩

/-- C13 at content length 5 on a stream that ends after "abc": the document
`do_put` leaves is "abc" followed by the byte 255, four bytes, not "abc". -/
theorem short_body_stores_eof_byte :
    (do_put (start (cs "abc")) (cs "./doc") 5).fs.node (cs "./doc")
      = some (Node.reg (cs "abc" ++ [255]))
    ∧ (do_put (start (cs "abc")) (cs "./doc") 5).fs.node (cs "./doc")
      ≠ some (Node.reg (cs "abc")) := by
  refine ⟨by decide, by decide⟩

/-- C18 at the request line "GET ?x HTTP/1.1": the line carries the method
"GET" and the target "?x", the path left after the cut at `?` is empty, and
`uri[strlen(uri)-1]` lies outside the string. -/
theorem empty_path_reads_outside :
    scan_s (c_str (cs "GET ?x HTTP/1.1\r\n")) = some (cs "GET", cs " ?x HTTP/1.1\r\n")
    ∧ scan_s (cs " ?x HTTP/1.1\r\n") = some (cs "?x", cs " HTTP/1.1\r\n")
    ∧ (cs "?x").takeWhile (fun b => b != 63) = []
    ∧ parse_input (cs "GET ?x HTTP/1.1\r\n") = Except.error Fault.bad_index := by
  refine ⟨by decide, by decide, by decide, by rfl⟩

/-- C15 (media type table). For every path, `mediatype` returns the entry of
the table for the extension of the file name (what follows the last dot of the
final path component) and "text/plain" when there is no extension or the
table does not list it. So it returns the media type of an entry exactly when
the extension is, byte for byte, the extension of that entry, and "text/plain"
exactly in every other case; a name without a dot, an upper-case extension and
a dot in a directory component only all give "text/plain". -/
theorem mediatype_table (path : List Byte) :
    mediatype path = media_type_of path
    ∧ (∀ k v, (k, v) ∈ media_table → (mediatype path = v ↔ extension path = some k))
    ∧ (mediatype path = cs "text/plain"
        ↔ ∀ k v, (k, v) ∈ media_table → extension path ≠ some k)
    ∧ mediatype (cs "./README") = cs "text/plain"
    ∧ mediatype (cs "./a.HTML") = cs "text/plain"
    ∧ mediatype (cs "./a.html/b") = cs "text/plain" := by
  have heq := mediatype_eq_media_type_of path
  refine ⟨heq, ?_, ?_, by decide, by decide, by decide⟩
  · intro k v h
    rw [heq]
    unfold media_type_of
    cases he : extension path with
    | none =>
      simp only [reduceCtorEq, iff_false]
      exact fun e => media_values_not_plain _ h e.symm
    | some e =>
      simp only [Option.some.injEq]
      exact lookup_type_eq_iff e k v h
  · rw [heq]
    unfold media_type_of
    cases he : extension path with
    | none => simp
    | some e =>
      simp only [ne_eq, Option.some.injEq]
      exact lookup_type_plain_iff e

/-- C15 at the path "./a.b/index.html": the extension is "html" and the media
type is "text/html". -/
theorem mediatype_table_witness :
    (cs "html", cs "text/html") ∈ media_table
    ∧ extension (cs "./a.b/index.html") = some (cs "html")
    ∧ mediatype (cs "./a.b/index.html") = cs "text/html" :=
  ⟨by decide, by decide,
   ((mediatype_table (cs "./a.b/index.html")).2.1 (cs "html") (cs "text/html") (by decide)).mpr
     (by decide)⟩

/-- C16 (anchor scan result). For every existing document `D` the backward
search of `do_post` ends within `len(D) + 2` rounds, whatever larger budget it
is given. It finds an anchor and puts the write cursor at `p` exactly when `p`
is the greatest position with `p + 4 ≤ len(D)` that holds `<`; it reports no
anchor and puts the write cursor at end-of-file exactly when no such position
exists, in particular whenever `len(D) < 4`. So a `<` among the last three
bytes is never selected. -/
theorem anchor_scan_result (filename c0 D : List Byte) (n : Int) :
    (∀ b, D.length + 2 ≤ b → scan_back b ⟨32, 0, -3, ⟨D, 0⟩⟩ = scan_loop ⟨D, 0⟩)
    ∧ (∀ p, ((prepare_post false filename n c0 ⟨D, 0⟩).err ≠ -1
              ∧ (prepare_post false filename n c0 ⟨D, 0⟩).putfile = ⟨D, p⟩)
          ↔ (p + 4 ≤ D.length ∧ D[p]? = some 60
              ∧ ∀ q, p < q → q + 4 ≤ D.length → D[q]? ≠ some 60))
    ∧ (((prepare_post false filename n c0 ⟨D, 0⟩).err = -1
          ∧ (prepare_post false filename n c0 ⟨D, 0⟩).putfile = ⟨D, D.length⟩)
        ↔ ∀ q, q + 4 ≤ D.length → D[q]? ≠ some 60)
    ∧ (D.length < 4 →
        (prepare_post false filename n c0 ⟨D, 0⟩).err = -1
        ∧ (prepare_post false filename n c0 ⟨D, 0⟩).putfile = ⟨D, D.length⟩) := by
  have hcases := prepare_post_cases filename c0 D n
  have h01 : (0 : Int) ≠ -1 := by decide
  refine ⟨?_, ?_, ?_, ?_⟩
  · intro b hb
    unfold scan_loop
    exact scan_back_budget b (D.length + 2) ⟨32, 0, -3, ⟨D, 0⟩⟩ (by simp only; omega)
      (by simp only; omega)
  · intro p
    constructor
    · rintro ⟨herr, hput⟩
      rcases hcases with ⟨p1, h4, hp, hmax, _, e3⟩ | ⟨_, e1, _⟩
      · rw [e3] at hput
        have : p1 = p := by injection hput
        subst this
        exact ⟨h4, hp, hmax⟩
      · exact absurd e1 herr
    · rintro ⟨h4, hp, hmax⟩
      rcases hcases with ⟨p1, h41, hp1, hmax1, e1, e3⟩ | ⟨hno, _, _⟩
      · have : p1 = p := by
          rcases Nat.lt_trichotomy p1 p with hlt | heq | hgt
          · exact absurd hp (hmax1 p hlt h4)
          · exact heq
          · exact absurd hp1 (hmax p1 hgt h41)
        subst this
        exact ⟨by rw [e1]; exact h01, e3⟩
      · exact absurd hp (hno p h4)
  · constructor
    · rintro ⟨herr, _⟩
      rcases hcases with ⟨p1, _, _, _, e1, _⟩ | ⟨hno, _, _⟩
      · rw [e1] at herr; exact absurd herr h01
      · exact hno
    · intro hno
      rcases hcases with ⟨p1, h41, hp1, _, _, _⟩ | ⟨_, e1, e2⟩
      · exact absurd hp1 (hno p1 h41)
      · exact ⟨e1, e2⟩
  · intro hlt
    rcases hcases with ⟨p1, h41, _, _, _, _⟩ | ⟨_, e1, e2⟩
    · omega
    · exact ⟨e1, e2⟩

/-- C16 at the document "<a></a>\n": the `<` of "</a>" at position 3 is
selected; and at the three bytes "ab<" nothing is selected. -/
theorem anchor_scan_result_witness :
    ((prepare_post false (cs "./doc") 1 [] ⟨cs "<a></a>\n", 0⟩).err ≠ -1
      ∧ (prepare_post false (cs "./doc") 1 [] ⟨cs "<a></a>\n", 0⟩).putfile
        = ⟨cs "<a></a>\n", 3⟩)
    ∧ ((prepare_post false (cs "./doc") 1 [] ⟨cs "ab<", 0⟩).err = -1
      ∧ (prepare_post false (cs "./doc") 1 [] ⟨cs "ab<", 0⟩).putfile
        = ⟨cs "ab<", (cs "ab<").length⟩) :=
  ⟨((anchor_scan_result (cs "./doc") [] (cs "<a></a>\n") 1).2.1 3).mpr
      ⟨by decide, by decide, by
        intro q h1 h2
        have h3 : q = 4 := by
          have : (cs "<a></a>\n").length = 8 := by decide
          omega
        subst h3
        decide⟩,
   (anchor_scan_result (cs "./doc") [] (cs "ab<") 1).2.2.2 (by decide)⟩

/-- C17 (prefix frame). For every existing regular file `D`, every content
length, every stream and every content of `closetag`, the document `do_post`
leaves agrees with `D` at every position before the write position that
`prepare_post` selects (the anchor, or the old end-of-file), and is at least as
long as `D`. When the file cannot be opened the document stays `D`. -/
theorem post_keeps_prefix (w : World) (filename c0 D : List Byte) (content_length : Int)
    (hnode : w.fs.node filename = some (Node.reg D)) :
    ∃ D1, (do_post w filename content_length c0).fs.node filename = some (Node.reg D1)
      ∧ D.length ≤ D1.length
      ∧ (prepare_post false filename content_length c0 ⟨D, 0⟩).putfile.pos ≤ D.length
      ∧ ∀ i, i < (prepare_post false filename content_length c0 ⟨D, 0⟩).putfile.pos →
          D1[i]? = D[i]? := by
  have hpos : (prepare_post false filename content_length c0 ⟨D, 0⟩).putfile.pos
      ≤ D.length := by
    rcases prepare_post_cases filename c0 D content_length with
      ⟨p, h4, _, _, _, e3⟩ | ⟨_, _, e2⟩
    · rw [e3]; simp only; omega
    · rw [e2]
  by_cases hw : w.fs.writable filename = true
  swap
  · have hf : fopen w.fs filename
        (if (w.fs.node filename).isNone then Mode.w else Mode.rplus) = none := by
      simp [hnode, fopen, hw]
    have hfs := ((do_post_response w filename c0 content_length).2 hf).1
    exact ⟨D, by rw [hfs]; exact hnode, le_refl _, hpos, fun _ _ => rfl⟩
  obtain ⟨W, hW⟩ := do_post_existing_any w filename c0 D content_length hnode hw
  have key : ∀ pos, pos ≤ D.length →
      (prepare_post false filename content_length c0 ⟨D, 0⟩).putfile = ⟨D, pos⟩ →
      ∃ D1, (do_post w filename content_length c0).fs.node filename = some (Node.reg D1)
        ∧ D.length ≤ D1.length
        ∧ (prepare_post false filename content_length c0 ⟨D, 0⟩).putfile.pos ≤ D.length
        ∧ ∀ i, i < (prepare_post false filename content_length c0 ⟨D, 0⟩).putfile.pos →
            D1[i]? = D[i]? := by
    intro pos hpos hput
    rw [hput, fputs_at W ⟨D, pos⟩ hpos] at hW
    refine ⟨_, hW, ?_, by rw [hput]; exact hpos, ?_⟩
    · simp only [List.length_append, List.length_take, List.length_drop]
      omega
    · intro i hi
      rw [hput] at hi
      simp only at hi
      rw [List.append_assoc, List.getElem?_append_left (by simp; omega),
        List.getElem?_take_of_lt hi]
  rcases prepare_post_cases filename c0 D content_length with
    ⟨p, h4, _, _, _, e3⟩ | ⟨_, _, e2⟩
  · exact key p (by omega) e3
  · exact key D.length (le_refl _) e2

/-- C17 at the document "<data></data>" and the body "x": the six bytes of
"<data>" before the anchor stay. -/
theorem post_keeps_prefix_witness :
    (doc_world (cs "<data></data>") (cs "x")).fs.node (cs "./doc")
      = some (Node.reg (cs "<data></data>"))
    ∧ ∃ D1, (do_post (doc_world (cs "<data></data>") (cs "x")) (cs "./doc") 1 []).fs.node
          (cs "./doc") = some (Node.reg D1)
      ∧ (cs "<data></data>").length ≤ D1.length
      ∧ (prepare_post false (cs "./doc") 1 [] ⟨cs "<data></data>", 0⟩).putfile.pos
          ≤ (cs "<data></data>").length
      ∧ ∀ i, i < (prepare_post false (cs "./doc") 1 [] ⟨cs "<data></data>", 0⟩).putfile.pos →
          D1[i]? = (cs "<data></data>")[i]? :=
  ⟨by decide,
   post_keeps_prefix (doc_world (cs "<data></data>") (cs "x")) (cs "./doc") []
     (cs "<data></data>") 1 (by decide)⟩

end XContents
